import Mathlib

/-!
# Settlement engine: shallow embedding of `src/src/SettlementEngine.h`

The header defines the record `Bank`, the shard function `getBankShard` and
the greedy solver `optimizedSolver`.  They are embedded as follows.

* `long` is a 64-bit and `int` a 32-bit two's complement integer.  Values are
  carried as `Int`; every arithmetic result that is stored back into a `long`
  (`abs`, `-=`, `+=`) goes through `wrapLong`, every increment of the `int`
  counter through `wrapInt`.  Signed overflow has no defined value in C++;
  the embedding gives an overflowing step the two's complement value the
  machine instruction produces.
* `bitset<16>` is a finite set of bit positions, `&` is intersection and
  `.any()` is non-emptiness.
* `std::priority_queue<pair<long,int>>` is a list kept in pop order: `push`
  inserts in front of the first element it has priority over, `top` is the
  head and `pop` drops it.  Pairs are compared lexicographically as
  `std::pair` does (`pqPush_popOrdered`, `cred_head_is_top`,
  `debt_head_is_top`).
* `banks[i]` past the end of the vector has no defined value; the embedding
  stops with `Outcome.outOfBounds` there.
* the `while` loop is run with a budget of iterations, the number of entries
  in the two queues at its start; `Outcome.outOfFuel` is the result of an
  exhausted budget, which never occurs (`solver_never_out_of_fuel`).

Definitions whose name is not in the header (`entriesFrom`, `loopTrace`,
`Match`, `Transfer`, `Clears`, ...) are specification-side: they observe a
run and are used only in statements.
-/

namespace SettlementEngine

/-! ## Definitions -/

/-- The type `ModeSet` of the header, `bitset<16>`: the set of bit positions that are set. -/
abbrev ModeSet := Finset (Fin 16)

/-- The record `Bank` of the header. -/
structure Bank where
  name : String
  balance : Int
  optimizedModes : ModeSet
  shardId : Int
deriving DecidableEq

/-- Result of running a piece of the program. -/
inductive Outcome (α : Type) where
  | ok (a : α)
  | outOfBounds
  | outOfFuel
deriving DecidableEq

/-- Sequencing of outcomes: a fault of the first part is the fault of the whole. -/
def Outcome.bind {α β : Type} : Outcome α → (α → Outcome β) → Outcome β
  | .ok a, f => f a
  | .outOfBounds, _ => .outOfBounds
  | .outOfFuel, _ => .outOfFuel

/-- Two's complement reduction to 64 bits: the value a `long` holds. -/
def wrapLong (z : Int) : Int := (z + 2 ^ 63) % 2 ^ 64 - 2 ^ 63

/-- Two's complement reduction to 32 bits: the value an `int` holds. -/
def wrapInt (z : Int) : Int := (z + 2 ^ 31) % 2 ^ 32 - 2 ^ 31

/-- Range of `long`. -/
def isLong (z : Int) : Prop := -2 ^ 63 ≤ z ∧ z < 2 ^ 63

/-- Range of `int`. -/
def isInt (z : Int) : Prop := -2 ^ 31 ≤ z ∧ z < 2 ^ 31

instance (z : Int) : Decidable (isLong z) := by unfold isLong; infer_instance

instance (z : Int) : Decidable (isInt z) := by unfold isInt; infer_instance

/-- The call `abs(x)` on a `long`. -/
def absLong (x : Int) : Int := wrapLong |x|

/-- The function `getBankShard`.  `std::hash<string>` belongs to the standard
library and is a parameter; its result is a `size_t`, reduced to 64 bits. -/
def getBankShard (hash : String → Nat) (name : String) : Int :=
  let hashVal : Nat := hash name % 2 ^ 64
  wrapInt ((hashVal % 4 : Nat) : Int)

/-- Element type of both queues, `pair<long, int>`: (balance, bank index). -/
abbrev Entry := Int × Nat

/-- Comparison `operator<` of `std::pair`. -/
def pairLt (a b : Entry) : Bool :=
  decide (a.1 < b.1) || (!decide (b.1 < a.1) && decide (a.2 < b.2))

/-- Priority of the creditor queue (comparator `less`): the greater pair is popped first. -/
def credBefore (a b : Entry) : Bool := pairLt b a

/-- Priority of the debtor queue (comparator `greater`): the smaller pair is popped first. -/
def debtBefore (a b : Entry) : Bool := pairLt a b

/-- The operation `push` of a priority queue held in pop order. -/
def pqPush (before : Entry → Entry → Bool) (x : Entry) : List Entry → List Entry
  | [] => [x]
  | y :: ys => if before x y then x :: y :: ys else y :: pqPush before x ys

/-- The two queues of `optimizedSolver`. -/
structure Queues where
  creditors : List Entry
  debtors : List Entry
deriving DecidableEq

/-- Body of the `for` loop at index `i`. -/
def fillStep (banks : List Bank) (q : Queues) (i : Nat) : Outcome Queues :=
  match banks[i]? with
  | none => .outOfBounds
  | some b =>
    if b.balance > 0 then
      .ok { q with creditors := pqPush credBefore (b.balance, i) q.creditors }
    else if b.balance < 0 then
      .ok { q with debtors := pqPush debtBefore (b.balance, i) q.debtors }
    else .ok q

/-- The `for` loop running over the indices `i, i+1, ..., i+k-1`. -/
def fillFrom (banks : List Bank) : Nat → Nat → Queues → Outcome Queues
  | _, 0, q => .ok q
  | i, k + 1, q => (fillStep banks q i).bind (fillFrom banks (i + 1) k)

/-- The `for` loop of `optimizedSolver`: `for(int i=0; i<numBanks; ++i)`. -/
def fillQueues (numBanks : Int) (banks : List Bank) : Outcome Queues :=
  fillFrom banks 0 numBanks.toNat ⟨[], []⟩

/-- State of the `while` loop. -/
structure LoopState where
  creditors : List Entry
  debtors : List Entry
  txCount : Int
deriving DecidableEq

/-- The value `amount` of one iteration. -/
def matchAmount (cred debt : Entry) : Int := min cred.1 (absLong debt.1)

/-- The condition `!isRBI && !sharedMode` of one iteration. -/
def penalised (cred debt : Entry) (bc bd : Bank) : Bool :=
  let isRBI : Bool := cred.2 == 0 || debt.2 == 0
  let sharedMode : Bool := decide (bc.optimizedModes ∩ bd.optimizedModes).Nonempty
  !isRBI && !sharedMode

/-- Body of the `while` loop after `cred` and `debt` have been popped;
`creditors` and `debtors` are the queues left by the two `pop`s. -/
def loopBody (banks : List Bank) (cred debt : Entry) (creditors debtors : List Entry)
    (txCount : Int) : Outcome LoopState :=
  let amount := matchAmount cred debt
  match banks[cred.2]?, banks[debt.2]? with
  | some bc, some bd =>
    let tx1 := if penalised cred debt bc bd then wrapInt (txCount + 1) else txCount
    let tx2 := wrapInt (tx1 + 1)
    let credFirst := wrapLong (cred.1 - amount)
    let debtFirst := wrapLong (debt.1 + amount)
    let creditors1 :=
      if credFirst > 0 then pqPush credBefore (credFirst, cred.2) creditors else creditors
    let debtors1 :=
      if debtFirst < 0 then pqPush debtBefore (debtFirst, debt.2) debtors else debtors
    .ok ⟨creditors1, debtors1, tx2⟩
  | _, _ => .outOfBounds

/-- The `while` loop, with a budget of iterations; the result is the state in
which the loop condition fails. -/
def whileLoop (banks : List Bank) : Nat → LoopState → Outcome LoopState
  | fuel, s =>
    match s.creditors, s.debtors with
    | cred :: creditors, debt :: debtors =>
      match fuel with
      | 0 => .outOfFuel
      | fuel + 1 =>
        (loopBody banks cred debt creditors debtors s.txCount).bind (whileLoop banks fuel)
    | _, _ => .ok s

/-- State of `optimizedSolver` when its `while` loop has stopped. -/
def finalState (numBanks : Int) (banks : List Bank) : Outcome LoopState :=
  (fillQueues numBanks banks).bind fun q =>
    whileLoop banks (q.creditors.length + q.debtors.length) ⟨q.creditors, q.debtors, 0⟩

/-- The function `optimizedSolver`. -/
def optimizedSolver (numBanks : Int) (banks : List Bank) : Outcome Int :=
  (finalState numBanks banks).bind fun s => .ok s.txCount

/-- The value `banks[i].optimizedModes.set()`: all sixteen bits. -/
def allModes : ModeSet := Finset.univ

/-- A `Bank` built as `{name, balance}` followed by assignments of its mode bits. -/
def mkBank (name : String) (balance : Int) (modes : ModeSet) : Bank :=
  ⟨name, balance, modes, 0⟩

/-- Input of the test `DirectTransaction`, with amount `x` and mode sets `mA`, `mB`. -/
def hubPair (x : Int) (mA mB : ModeSet) : List Bank :=
  [mkBank "RBI" 0 allModes, mkBank "A" (-x) mA, mkBank "B" x mB]

/-- Entries `(balance, index)` of the banks of `bs` (indexed from `i`) whose
balance satisfies `keep`, in input order. -/
def entriesFrom (keep : Int → Bool) : Nat → List Bank → List Entry
  | _, [] => []
  | i, b :: bs =>
    if keep b.balance then (b.balance, i) :: entriesFrom keep (i + 1) bs
    else entriesFrom keep (i + 1) bs

/-- Sum of the balances held in a queue. -/
def queueSum (q : List Entry) : Int := (q.map Prod.fst).sum

/-- Sum of the balances of a list of banks. -/
def totalBalance (banks : List Bank) : Int := (banks.map Bank.balance).sum

/-- Number of banks with a nonzero balance. -/
def nonzeroCount (banks : List Bank) : Nat := banks.countP fun b => decide (b.balance ≠ 0)

/-- Number of banks with a positive balance. -/
def creditorCount (banks : List Bank) : Nat := banks.countP fun b => decide (0 < b.balance)

/-- Number of banks with a negative balance. -/
def debtorCount (banks : List Bank) : Nat := banks.countP fun b => decide (b.balance < 0)

/-- Test `balance > 0` of the `for` loop. -/
def isPos (z : Int) : Bool := decide (0 < z)

/-- Test `balance < 0` of the `for` loop. -/
def isNeg (z : Int) : Bool := decide (z < 0)

/-- One iteration of the `while` loop as seen from outside: the two popped
entries, the amount matched and whether the routing penalty was charged. -/
structure Match where
  cred : Entry
  debt : Entry
  amount : Int
  penalty : Bool
deriving DecidableEq

/-- Whether the iteration that pops `cred` and `debt` charges the penalty. -/
def penaltyAt (banks : List Bank) (cred debt : Entry) : Bool :=
  match banks[cred.2]?, banks[debt.2]? with
  | some bc, some bd => penalised cred debt bc bd
  | _, _ => false

/-- The iterations the `while` loop performs from state `s`, in order. -/
def loopTrace (banks : List Bank) : Nat → LoopState → List Match
  | fuel, s =>
    match s.creditors, s.debtors with
    | cred :: creditors, debt :: debtors =>
      match fuel with
      | 0 => []
      | fuel + 1 =>
        match loopBody banks cred debt creditors debtors s.txCount with
        | .ok s1 =>
          ⟨cred, debt, matchAmount cred debt, penaltyAt banks cred debt⟩ :: loopTrace banks fuel s1
        | _ => []
    | _, _ => []

/-- The iterations performed by `optimizedSolver`. -/
def solverTrace (numBanks : Int) (banks : List Bank) : List Match :=
  match fillQueues numBanks banks with
  | .ok q => loopTrace banks (q.creditors.length + q.debtors.length) ⟨q.creditors, q.debtors, 0⟩
  | _ => []

/-- Transaction units charged by one iteration. -/
def matchCost (m : Match) : Int := if m.penalty then 2 else 1

/-- Transaction units charged by a sequence of iterations, as a mathematical integer. -/
def traceCost (ms : List Match) : Int := (ms.map matchCost).sum

/-- Basic well-formedness of a loop state: indices are valid and debtor balances negative. -/
def Valid (banks : List Bank) (s : LoopState) : Prop :=
  (∀ e ∈ s.creditors, e.2 < banks.length) ∧ (∀ e ∈ s.debtors, e.2 < banks.length ∧ e.1 < 0)

/-- Every creditor entry belongs to a bank of positive input balance and holds
a positive value; every debtor entry belongs to a bank of negative input
balance and holds a negative value. -/
def Sided (banks : List Bank) (s : LoopState) : Prop :=
  (∀ e ∈ s.creditors, ∃ b, banks[e.2]? = some b ∧ 0 < b.balance ∧ 0 < e.1) ∧
  (∀ e ∈ s.debtors, ∃ b, banks[e.2]? = some b ∧ b.balance < 0 ∧ e.1 < 0)

/-- The basic invariant: `Sided`, and the counter holds an `int`. -/
def Basic (banks : List Bank) (s : LoopState) : Prop :=
  Sided banks s ∧ isInt s.txCount

/-- What the basic invariant gives about a run from `s` with iterations `ms` ending in `sf`. -/
def BasicRun (banks : List Bank) (s : LoopState) (ms : List Match) (sf : LoopState) : Prop :=
  sf.txCount = wrapInt (s.txCount + traceCost ms) ∧
  ((s.creditors = [] ∨ s.debtors = []) → ms = []) ∧
  (s.creditors ≠ [] → s.debtors ≠ [] → ms.length + 1 ≤ s.creditors.length + s.debtors.length) ∧
  (∀ m ∈ ms, ∃ bc bd, banks[m.cred.2]? = some bc ∧ banks[m.debt.2]? = some bd ∧
    0 < bc.balance ∧ bd.balance < 0 ∧ m.penalty = penalised m.cred m.debt bc bd)

/-- Input of the test `CircularDebtResolvesToZero`. -/
def circularDebtBanks : List Bank :=
  [mkBank "A" 0 ∅, mkBank "B" 0 ∅, mkBank "C" 0 ∅]

/-- Input of the test `HandlesLargeInputsWithoutCrash`: `N` banks of balance 0 on mode 0. -/
def largeZeroBanks (N : Nat) : List Bank :=
  (List.range N).map fun i => mkBank ("B" ++ toString i) 0 {0}

/-- A hub of balance 0, one debtor owing `K` on mode 0 and `K` creditors owed 1 each on mode 2. -/
def starBanks (K : Nat) : List Bank :=
  mkBank "RBI" 0 allModes :: mkBank "D" (-(K : Int)) {0} :: List.replicate K (mkBank "C" 1 {2})

/-- A pairwise transfer: `payer` hands `amount` to `payee`. -/
structure Transfer where
  payer : Nat
  payee : Nat
  amount : Int
deriving DecidableEq

/-- The transfer an iteration stands for: the debtor pays the creditor. -/
def Match.transfer (m : Match) : Transfer := ⟨m.debt.2, m.cred.2, m.amount⟩

/-- What bank `i` receives minus what it pays under the transfers `ts`. -/
def netReceived (ts : List Transfer) (i : Nat) : Int :=
  (ts.map fun t => (if t.payee = i then t.amount else 0) - (if t.payer = i then t.amount else 0)).sum

/-- The transfers `ts` are between distinct banks of the list, of positive
amounts, and bring every balance to zero: each bank receives, net, exactly
its balance. -/
def Clears (balances : List Int) (ts : List Transfer) : Prop :=
  (∀ t ∈ ts, 0 < t.amount ∧ t.payer ≠ t.payee ∧
    t.payer < balances.length ∧ t.payee < balances.length) ∧
  (∀ i, i < balances.length → balances.getD i 0 - netReceived ts i = 0)

instance (balances : List Int) (ts : List Transfer) : Decidable (Clears balances ts) := by
  unfold Clears; infer_instance

/-- Working balance that the queue `q` holds for bank `i`. -/
def heldBy (i : Nat) (q : List Entry) : Int :=
  ((q.filter fun e => e.2 == i).map Prod.fst).sum

/-- Working balance of bank `i` in a loop state; a bank in neither queue has none left. -/
def working (s : LoopState) (i : Nat) : Int := heldBy i s.creditors + heldBy i s.debtors

/-- The balances in the queues are above `-2^63` and below `2^63`. -/
def Ranged (s : LoopState) : Prop :=
  (∀ e ∈ s.creditors, e.1 < 2 ^ 63) ∧ (∀ e ∈ s.debtors, -2 ^ 63 < e.1)

/-- Invariant of runs without overflow: `Sided`, `Ranged`, and the balances in
the two queues sum to `T`. -/
def Exact (banks : List Bank) (T : Int) (s : LoopState) : Prop :=
  Sided banks s ∧ Ranged s ∧ queueSum s.creditors + queueSum s.debtors = T

/-- The arithmetic of one iteration stays inside `long`. -/
def Match.exact (m : Match) : Prop :=
  0 < m.cred.1 ∧ m.cred.1 < 2 ^ 63 ∧ -2 ^ 63 < m.debt.1 ∧ m.debt.1 < 0 ∧
  m.amount = min m.cred.1 (-m.debt.1)

/-- What `Exact` gives about a run. -/
def ExactRun (s : LoopState) (ms : List Match) (sf : LoopState) : Prop :=
  (∀ i, working s i = working sf i + netReceived (ms.map Match.transfer) i) ∧
  (∀ m ∈ ms, m.exact)

/-- The balances of a list of banks lie strictly between `-2^63` and `2^63`:
they are `long` values other than the least one. -/
def AboveMin (banks : List Bank) : Prop :=
  ∀ b ∈ banks, -2 ^ 63 < b.balance ∧ b.balance < 2 ^ 63

instance (banks : List Bank) : Decidable (AboveMin banks) := by
  unfold AboveMin; infer_instance

/-- Every pair of a bank of positive balance and a bank of negative balance
includes index 0 or has intersecting mode sets. -/
def PairsCompatible (banks : List Bank) : Prop :=
  ∀ i j : Fin banks.length, 0 < (banks.get i).balance → (banks.get j).balance < 0 →
    i.val = 0 ∨ j.val = 0 ∨
      ((banks.get i).optimizedModes ∩ (banks.get j).optimizedModes).Nonempty

instance (banks : List Bank) : Decidable (PairsCompatible banks) := by
  unfold PairsCompatible; infer_instance

/-- No arithmetic step of the iteration leaves the range of `long`: the
magnitude `abs(debt.first)`, `cred.first - amount` and `debt.first + amount`
are representable, and `amount` is the mathematical minimum. -/
def Match.noOverflow (m : Match) : Prop :=
  isLong |m.debt.1| ∧ m.amount = min m.cred.1 |m.debt.1| ∧
  isLong (m.cred.1 - m.amount) ∧ isLong (m.debt.1 + m.amount)

instance (m : Match) : Decidable m.noOverflow := by
  unfold Match.noOverflow; infer_instance

/-- Three banks whose balances sum to zero, one of them holding the least `long`. -/
def minLongBanks : List Bank :=
  [mkBank "A" 9223372036854775807 {0}, mkBank "B" 1 {0},
   mkBank "C" (-9223372036854775808) {0}]

/-- Six banks on one common mode with balances `0, 5, 3, 3, -6, -5`. -/
def greedyBanks : List Bank :=
  [mkBank "RBI" 0 {0}, mkBank "A" 5 {0}, mkBank "B" 3 {0}, mkBank "C" 3 {0},
   mkBank "D" (-6) {0}, mkBank "E" (-5) {0}]

/-- Three transfers that clear `greedyBanks`: `D` pays `B` and `C`, `E` pays `A`. -/
def threeTransfers : List Transfer := [⟨4, 2, 3⟩, ⟨4, 3, 3⟩, ⟨5, 1, 5⟩]

/-- Hub, a debtor holding the least `long`, and a creditor owed 1. -/
def overflowBanks : List Bank :=
  [mkBank "RBI" 0 allModes, mkBank "A" (-9223372036854775808) {0}, mkBank "B" 1 {0}]

/-- A queue is in pop order: no element has priority over one in front of it. -/
def PopOrdered (before : Entry → Entry → Bool) (l : List Entry) : Prop :=
  l.Pairwise fun a b => before b a = false

/-- Two ordinary banks and no hub: `A` owes `x` and is at index 0, `B` is owed `x`. -/
def noHubPair (x : Int) (mA mB : ModeSet) : List Bank :=
  [mkBank "A" (-x) mA, mkBank "B" x mB]

/-- Hub and four banks: two debtors of 100 on modes 0 and 2, two creditors of
100 on modes 0 and 2. -/
def tieBanks : List Bank :=
  [mkBank "RBI" 0 allModes, mkBank "A1" (-100) {0}, mkBank "A2" (-100) {2},
   mkBank "B1" 100 {0}, mkBank "B2" 100 {2}]

/-- The list `tieBanks` with `B1` and `B2` exchanged. -/
def tieBanksSwapped : List Bank :=
  [mkBank "RBI" 0 allModes, mkBank "A1" (-100) {0}, mkBank "A2" (-100) {2},
   mkBank "B2" 100 {2}, mkBank "B1" 100 {0}]

/-- Replace the mode set of the bank at index 0. -/
def setHubModes (m : ModeSet) : List Bank → List Bank
  | [] => []
  | b :: bs => { b with optimizedModes := m } :: bs

/-- The bank with its mode set replaced by the full set. -/
def withAllModes (b : Bank) : Bank := { b with optimizedModes := allModes }

/-- A matched step: creditor index, debtor index, amount. -/
def Match.step (m : Match) : Nat × Nat × Int := (m.cred.2, m.debt.2, m.amount)

/-- The matched pair excludes index 0 and the mode sets of its two banks are disjoint. -/
def disjointNonHub (banks : List Bank) (m : Match) : Bool :=
  decide (m.cred.2 ≠ 0) && decide (m.debt.2 ≠ 0) &&
    match banks[m.cred.2]?, banks[m.debt.2]? with
    | some bc, some bd => decide (bc.optimizedModes ∩ bd.optimizedModes = ∅)
    | _, _ => false

/-- The states in which the condition of the `while` loop is evaluated, from
`s` on: the state at the start of every iteration, then the state in which
the loop stops. -/
def loopStates (banks : List Bank) : Nat → LoopState → List LoopState
  | fuel, s =>
    match s.creditors, s.debtors with
    | cred :: creditors, debt :: debtors =>
      match fuel with
      | 0 => [s]
      | fuel + 1 =>
        match loopBody banks cred debt creditors debtors s.txCount with
        | .ok s1 => s :: loopStates banks fuel s1
        | _ => [s]
    | _, _ => [s]

/-- The states at the loop head during a call of `optimizedSolver`. -/
def solverStates (numBanks : Int) (banks : List Bank) : List LoopState :=
  match fillQueues numBanks banks with
  | .ok q => loopStates banks (q.creditors.length + q.debtors.length) ⟨q.creditors, q.debtors, 0⟩
  | _ => []

/-- Number of entries in the two queues of a state. -/
def LoopState.size (s : LoopState) : Nat := s.creditors.length + s.debtors.length

/-- Number of entries of the queue `q` that carry bank index `i`. -/
def idxCount (i : Nat) (q : List Entry) : Nat := (q.map Prod.snd).count i

/-- Each bank index occurs in at most one entry across both queues. -/
def IndexUnique (s : LoopState) : Prop :=
  ∀ i, idxCount i s.creditors + idxCount i s.debtors ≤ 1

/-- A creditor owed 5 at index 0 and a debtor holding the least `long`. -/
def lopsidedBanks : List Bank :=
  [mkBank "A" 5 {0}, mkBank "B" (-9223372036854775808) {0}]

/-! ## Theorems -/

theorem wrapLong_of_isLong {z : Int} (h : isLong z) : wrapLong z = z := by
  unfold isLong at h
  unfold wrapLong
  omega

theorem wrapInt_of_isInt {z : Int} (h : isInt z) : wrapInt z = z := by
  unfold isInt at h
  unfold wrapInt
  omega

theorem wrapLong_zero : wrapLong 0 = 0 := by decide

theorem wrapLong_add_wrapLong (a b : Int) : wrapLong (a + wrapLong b) = wrapLong (a + b) := by
  unfold wrapLong
  omega

theorem wrapInt_wrapInt_add (a b : Int) : wrapInt (wrapInt a + b) = wrapInt (a + b) := by
  unfold wrapInt
  omega

theorem absLong_of_neg {d : Int} (h : d < 0) : absLong d = wrapLong (-d) := by
  unfold absLong
  rw [abs_of_neg h]

/-- One of the two popped entries is brought to exactly zero, whatever the values. -/
theorem match_zeroes_one (c d : Int) (hd : d < 0) :
    wrapLong (c - min c (absLong d)) = 0 ∨ wrapLong (d + min c (absLong d)) = 0 := by
  rcases le_total c (absLong d) with h | h
  · left
    rw [min_eq_left h, sub_self, wrapLong_zero]
  · right
    rw [min_eq_right h, absLong_of_neg hd, wrapLong_add_wrapLong, add_neg_cancel, wrapLong_zero]

theorem pqPush_perm (before : Entry → Entry → Bool) (x : Entry) (l : List Entry) :
    (pqPush before x l).Perm (x :: l) := by
  induction l with
  | nil => simp [pqPush]
  | cons y ys ih =>
    unfold pqPush
    split
    · exact List.Perm.refl _
    · exact (List.Perm.cons y ih).trans (List.Perm.swap x y ys)

theorem mem_pqPush {before : Entry → Entry → Bool} {x e : Entry} {l : List Entry} :
    e ∈ pqPush before x l ↔ e = x ∨ e ∈ l := by
  rw [(pqPush_perm before x l).mem_iff, List.mem_cons]

theorem length_pqPush (before : Entry → Entry → Bool) (x : Entry) (l : List Entry) :
    (pqPush before x l).length = l.length + 1 := by
  rw [(pqPush_perm before x l).length_eq, List.length_cons]

theorem queueSum_perm {l₁ l₂ : List Entry} (h : l₁.Perm l₂) : queueSum l₁ = queueSum l₂ := by
  unfold queueSum
  exact (h.map Prod.fst).sum_eq

theorem queueSum_pqPush (before : Entry → Entry → Bool) (x : Entry) (l : List Entry) :
    queueSum (pqPush before x l) = x.1 + queueSum l := by
  rw [queueSum_perm (pqPush_perm before x l)]
  simp [queueSum]

theorem fillFrom_spec (banks : List Bank) :
    ∀ (rest : List Bank) (i : Nat) (q : Queues) (tl : List Bank),
      banks.drop i = rest ++ tl →
      ∃ q', fillFrom banks i rest.length q = .ok q' ∧
        q'.creditors.Perm (entriesFrom isPos i rest ++ q.creditors) ∧
        q'.debtors.Perm (entriesFrom isNeg i rest ++ q.debtors) := by
  intro rest
  induction rest with
  | nil =>
    intro i q tl _
    exact ⟨q, rfl, by simp [entriesFrom], by simp [entriesFrom]⟩
  | cons b rest ih =>
    intro i q tl h
    have hget : banks[i]? = some b := by
      have h0 : (banks.drop i)[0]? = banks[i + 0]? := List.getElem?_drop banks i 0
      rw [h] at h0
      simpa using h0.symm
    have hdrop : banks.drop (i + 1) = rest ++ tl := by
      have h1 : banks.drop (i + 1) = (banks.drop i).drop 1 := by
        rw [List.drop_drop, Nat.add_comm]
      rw [h1, h]
      rfl
    rcases lt_trichotomy b.balance 0 with hb | hb | hb
    · have hnp : ¬ (0 < b.balance) := by omega
      obtain ⟨q', hq', hc, hd⟩ :=
        ih (i + 1) { q with debtors := pqPush debtBefore (b.balance, i) q.debtors } tl hdrop
      refine ⟨q', ?_, ?_, ?_⟩
      · simp [fillFrom, fillStep, hget, hnp, hb, Outcome.bind, hq']
      · simpa [entriesFrom, isPos, hnp] using hc
      · simp only [entriesFrom, isNeg, hb, decide_True, if_true]
        refine hd.trans ?_
        refine (List.Perm.append_left _ (pqPush_perm _ _ _)).trans ?_
        exact List.perm_middle
    · have hnp : ¬ (0 < b.balance) := by omega
      have hnn : ¬ (b.balance < 0) := by omega
      obtain ⟨q', hq', hc, hd⟩ := ih (i + 1) q tl hdrop
      refine ⟨q', ?_, ?_, ?_⟩
      · simp [fillFrom, fillStep, hget, hnp, hnn, Outcome.bind, hq']
      · simpa [entriesFrom, isPos, hnp] using hc
      · simpa [entriesFrom, isNeg, hnn] using hd
    · have hnn : ¬ (b.balance < 0) := by omega
      obtain ⟨q', hq', hc, hd⟩ :=
        ih (i + 1) { q with creditors := pqPush credBefore (b.balance, i) q.creditors } tl hdrop
      refine ⟨q', ?_, ?_, ?_⟩
      · simp [fillFrom, fillStep, hget, hb, Outcome.bind, hq']
      · simp only [entriesFrom, isPos, hb, decide_True, if_true]
        refine hc.trans ?_
        refine (List.Perm.append_left _ (pqPush_perm _ _ _)).trans ?_
        exact List.perm_middle
      · simpa [entriesFrom, isNeg, hnn] using hd

/-- The `for` loop over a prefix of the vector succeeds and leaves in the queues
the entries of the positive and of the negative banks of that prefix. -/
theorem fillQueues_spec (banks : List Bank) (n : Nat) (hn : n ≤ banks.length) :
    ∃ q, fillQueues (n : Int) banks = .ok q ∧
      q.creditors.Perm (entriesFrom isPos 0 (banks.take n)) ∧
      q.debtors.Perm (entriesFrom isNeg 0 (banks.take n)) := by
  have h := fillFrom_spec banks (banks.take n) 0 ⟨[], []⟩ (banks.drop n)
    (by simp)
  rw [List.length_take, Nat.min_eq_left hn] at h
  simpa [fillQueues] using h

theorem mem_entriesFrom {keep : Int → Bool} {e : Entry} :
    ∀ {bs : List Bank} {i : Nat}, e ∈ entriesFrom keep i bs →
      ∃ j b, bs[j]? = some b ∧ keep b.balance = true ∧ e = (b.balance, i + j) := by
  intro bs
  induction bs with
  | nil => intro i h; simp [entriesFrom] at h
  | cons b bs ih =>
    intro i h
    unfold entriesFrom at h
    by_cases hk : keep b.balance = true
    · rw [if_pos hk, List.mem_cons] at h
      rcases h with h | h
      · exact ⟨0, b, by simp, hk, by simpa using h⟩
      · obtain ⟨j, b', hj, hk', he⟩ := ih h
        exact ⟨j + 1, b', by simpa using hj, hk', by rw [he]; congr 1; omega⟩
    · rw [if_neg hk] at h
      obtain ⟨j, b', hj, hk', he⟩ := ih h
      exact ⟨j + 1, b', by simpa using hj, hk', by rw [he]; congr 1; omega⟩

theorem length_entriesFrom (keep : Int → Bool) :
    ∀ (bs : List Bank) (i : Nat),
      (entriesFrom keep i bs).length = bs.countP fun b => keep b.balance := by
  intro bs
  induction bs with
  | nil => intro i; rfl
  | cons b bs ih =>
    intro i
    unfold entriesFrom
    by_cases hk : keep b.balance = true
    · rw [if_pos hk, List.length_cons, ih, List.countP_cons]
      simp [hk]
    · rw [if_neg hk, ih, List.countP_cons]
      simp [hk]

theorem whileLoop_stop_left (banks : List Bank) (fuel : Nat) (ds : List Entry) (tx : Int) :
    whileLoop banks fuel ⟨[], ds, tx⟩ = .ok ⟨[], ds, tx⟩ := by
  cases fuel <;> simp [whileLoop]

theorem whileLoop_stop_right (banks : List Bank) (fuel : Nat) (cs : List Entry) (tx : Int) :
    whileLoop banks fuel ⟨cs, [], tx⟩ = .ok ⟨cs, [], tx⟩ := by
  cases fuel <;> cases cs <;> simp [whileLoop]

theorem whileLoop_succ (banks : List Bank) (fuel : Nat) (cred debt : Entry)
    (cs ds : List Entry) (tx : Int) :
    whileLoop banks (fuel + 1) ⟨cred :: cs, debt :: ds, tx⟩
      = (loopBody banks cred debt cs ds tx).bind (whileLoop banks fuel) := by
  simp [whileLoop]

theorem loopTrace_stop_left (banks : List Bank) (fuel : Nat) (ds : List Entry) (tx : Int) :
    loopTrace banks fuel ⟨[], ds, tx⟩ = [] := by
  cases fuel <;> simp [loopTrace]

theorem loopTrace_stop_right (banks : List Bank) (fuel : Nat) (cs : List Entry) (tx : Int) :
    loopTrace banks fuel ⟨cs, [], tx⟩ = [] := by
  cases fuel <;> cases cs <;> simp [loopTrace]

theorem loopTrace_succ (banks : List Bank) (fuel : Nat) (cred debt : Entry)
    (cs ds : List Entry) (tx : Int) (s1 : LoopState)
    (h : loopBody banks cred debt cs ds tx = .ok s1) :
    loopTrace banks (fuel + 1) ⟨cred :: cs, debt :: ds, tx⟩
      = ⟨cred, debt, matchAmount cred debt, penaltyAt banks cred debt⟩
          :: loopTrace banks fuel s1 := by
  rw [loopTrace]
  simp only [h]

/-- Result of the loop body when both lookups are in range. -/
theorem loopBody_ok {banks : List Bank} {cred debt : Entry} {bc bd : Bank}
    (hc : banks[cred.2]? = some bc) (hd : banks[debt.2]? = some bd)
    (cs ds : List Entry) (tx : Int) :
    loopBody banks cred debt cs ds tx = .ok
      ⟨if 0 < wrapLong (cred.1 - matchAmount cred debt)
          then pqPush credBefore (wrapLong (cred.1 - matchAmount cred debt), cred.2) cs else cs,
       if wrapLong (debt.1 + matchAmount cred debt) < 0
          then pqPush debtBefore (wrapLong (debt.1 + matchAmount cred debt), debt.2) ds else ds,
       wrapInt ((if penalised cred debt bc bd then wrapInt (tx + 1) else tx) + 1)⟩ := by
  unfold loopBody
  simp only [hc, hd]

theorem lookup_of_lt {banks : List Bank} {i : Nat} (h : i < banks.length) :
    ∃ b, banks[i]? = some b := ⟨banks[i], List.getElem?_eq_getElem h⟩

/-- Each iteration shortens the two queues taken together. -/
theorem loopBody_length {banks : List Bank} {cred debt : Entry} {cs ds : List Entry}
    {tx : Int} {s1 : LoopState} (hd : debt.1 < 0)
    (h : loopBody banks cred debt cs ds tx = .ok s1) :
    s1.creditors.length + s1.debtors.length ≤ cs.length + ds.length + 1 := by
  unfold loopBody at h
  split at h
  · injection h with h
    subst h
    have hz := match_zeroes_one cred.1 debt.1 hd
    simp only [matchAmount]
    rcases hz with hz | hz
    · rw [hz]
      simp only [lt_irrefl, if_false, gt_iff_lt]
      split
      · rw [length_pqPush]; omega
      · omega
    · rw [hz]
      simp only [lt_irrefl, if_false, gt_iff_lt]
      split
      · rw [length_pqPush]; omega
      · omega
  · cases h

/-- Invariant rule: a property `Inv` kept by the loop body, which implies
`Valid`, gives a terminating run within the budget, and any relation `Φ`
between a state, the iterations run from it and the final state that is
closed under prefixing one iteration holds of the run. -/
theorem loop_rule (banks : List Bank) (Inv : LoopState → Prop)
    (Φ : LoopState → List Match → LoopState → Prop)
    (hValid : ∀ s, Inv s → Valid banks s)
    (hInv : ∀ cred debt cs ds tx s1, Inv ⟨cred :: cs, debt :: ds, tx⟩ →
      loopBody banks cred debt cs ds tx = .ok s1 → Inv s1)
    (hstop : ∀ s, Inv s → (s.creditors = [] ∨ s.debtors = []) → Φ s [] s)
    (hstep : ∀ cred debt cs ds tx s1 ms sf, Inv ⟨cred :: cs, debt :: ds, tx⟩ →
      loopBody banks cred debt cs ds tx = .ok s1 → Φ s1 ms sf →
      Φ ⟨cred :: cs, debt :: ds, tx⟩
        (⟨cred, debt, matchAmount cred debt, penaltyAt banks cred debt⟩ :: ms) sf) :
    ∀ (fuel : Nat) (s : LoopState), Inv s → s.creditors.length + s.debtors.length ≤ fuel →
      ∃ sf, whileLoop banks fuel s = .ok sf ∧ Inv sf ∧
        (sf.creditors = [] ∨ sf.debtors = []) ∧ Φ s (loopTrace banks fuel s) sf := by
  intro fuel
  induction fuel with
  | zero =>
    intro s hs hlen
    obtain ⟨cs, ds, tx⟩ := s
    have hlen0 : cs.length + ds.length ≤ 0 := hlen
    have hc : cs = [] := List.eq_nil_of_length_eq_zero (by omega)
    subst hc
    refine ⟨⟨[], ds, tx⟩, whileLoop_stop_left _ _ _ _, hs, Or.inl rfl, ?_⟩
    rw [loopTrace_stop_left]
    exact hstop _ hs (Or.inl rfl)
  | succ fuel ih =>
    intro s hs hlen
    obtain ⟨cs, ds, tx⟩ := s
    cases cs with
    | nil =>
      refine ⟨⟨[], ds, tx⟩, whileLoop_stop_left _ _ _ _, hs, Or.inl rfl, ?_⟩
      rw [loopTrace_stop_left]
      exact hstop _ hs (Or.inl rfl)
    | cons cred cs =>
      cases ds with
      | nil =>
        refine ⟨⟨cred :: cs, [], tx⟩, whileLoop_stop_right _ _ _ _, hs, Or.inr rfl, ?_⟩
        rw [loopTrace_stop_right]
        exact hstop _ hs (Or.inr rfl)
      | cons debt ds =>
        have hv := hValid _ hs
        obtain ⟨bc, hbc⟩ := lookup_of_lt (hv.1 cred (List.mem_cons_self _ _))
        obtain ⟨bd, hbd⟩ := lookup_of_lt (hv.2 debt (List.mem_cons_self _ _)).1
        have hneg : debt.1 < 0 := (hv.2 debt (List.mem_cons_self _ _)).2
        have hbody := loopBody_ok hbc hbd cs ds tx
        generalize hs1 : (⟨_, _, _⟩ : LoopState) = s1 at hbody
        have hInv1 := hInv cred debt cs ds tx s1 hs hbody
        have hlen1 := loopBody_length hneg hbody
        have hlen0 : (cs.length + 1) + (ds.length + 1) ≤ fuel + 1 := hlen
        obtain ⟨sf, hrun, hIf, hend, hΦ⟩ := ih s1 hInv1 (by omega)
        refine ⟨sf, ?_, hIf, hend, ?_⟩
        · rw [whileLoop_succ, hbody]
          exact hrun
        · rw [loopTrace_succ _ _ _ _ _ _ _ _ hbody]
          exact hstep cred debt cs ds tx s1 _ sf hs hbody hΦ

theorem isInt_wrapInt (z : Int) : isInt (wrapInt z) := by
  unfold isInt wrapInt
  omega

theorem isLong_wrapLong (z : Int) : isLong (wrapLong z) := by
  unfold isLong wrapLong
  omega

theorem lt_length_of_lookup {banks : List Bank} {i : Nat} {b : Bank}
    (h : banks[i]? = some b) : i < banks.length := by
  by_contra hlt
  rw [List.getElem?_eq_none (by omega)] at h
  cases h

theorem sided_valid {banks : List Bank} {s : LoopState} (h : Sided banks s) : Valid banks s := by
  constructor
  · intro e he
    obtain ⟨b, hb, _, _⟩ := h.1 e he
    exact lt_length_of_lookup hb
  · intro e he
    obtain ⟨b, hb, _, hneg⟩ := h.2 e he
    exact ⟨lt_length_of_lookup hb, hneg⟩

/-- The loop body computed at a `Sided` state. -/
theorem loopBody_sided {banks : List Bank} {cred debt : Entry} {cs ds : List Entry} {tx : Int}
    {s1 : LoopState} (hs : Sided banks ⟨cred :: cs, debt :: ds, tx⟩)
    (h : loopBody banks cred debt cs ds tx = .ok s1) :
    ∃ bc bd, banks[cred.2]? = some bc ∧ banks[debt.2]? = some bd ∧
      0 < bc.balance ∧ bd.balance < 0 ∧ 0 < cred.1 ∧ debt.1 < 0 ∧
      s1 = ⟨if 0 < wrapLong (cred.1 - matchAmount cred debt)
          then pqPush credBefore (wrapLong (cred.1 - matchAmount cred debt), cred.2) cs else cs,
       if wrapLong (debt.1 + matchAmount cred debt) < 0
          then pqPush debtBefore (wrapLong (debt.1 + matchAmount cred debt), debt.2) ds else ds,
       wrapInt ((if penalised cred debt bc bd then wrapInt (tx + 1) else tx) + 1)⟩ := by
  obtain ⟨bc, hbc, hbcpos, hcpos⟩ := hs.1 cred (List.mem_cons_self _ _)
  obtain ⟨bd, hbd, hbdneg, hdneg⟩ := hs.2 debt (List.mem_cons_self _ _)
  rw [loopBody_ok hbc hbd] at h
  injection h with h
  exact ⟨bc, bd, hbc, hbd, hbcpos, hbdneg, hcpos, hdneg, h.symm⟩

theorem sided_step {banks : List Bank} {cred debt : Entry} {cs ds : List Entry} {tx : Int}
    {s1 : LoopState} (hs : Sided banks ⟨cred :: cs, debt :: ds, tx⟩)
    (h : loopBody banks cred debt cs ds tx = .ok s1) : Sided banks s1 := by
  obtain ⟨bc, bd, hbc, hbd, hbcpos, hbdneg, hcpos, hdneg, rfl⟩ := loopBody_sided hs h
  constructor
  · intro e he
    simp only at he
    split at he
    · rcases mem_pqPush.mp he with rfl | he
      · exact ⟨bc, hbc, hbcpos, by assumption⟩
      · exact hs.1 e (List.mem_cons_of_mem _ he)
    · exact hs.1 e (List.mem_cons_of_mem _ he)
  · intro e he
    simp only at he
    split at he
    · rcases mem_pqPush.mp he with rfl | he
      · exact ⟨bd, hbd, hbdneg, by assumption⟩
      · exact hs.2 e (List.mem_cons_of_mem _ he)
    · exact hs.2 e (List.mem_cons_of_mem _ he)

theorem penaltyAt_eq {banks : List Bank} {cred debt : Entry} {bc bd : Bank}
    (hc : banks[cred.2]? = some bc) (hd : banks[debt.2]? = some bd) :
    penaltyAt banks cred debt = penalised cred debt bc bd := by
  simp [penaltyAt, hc, hd]

theorem traceCost_cons (m : Match) (ms : List Match) :
    traceCost (m :: ms) = matchCost m + traceCost ms := by
  simp [traceCost]

/-- The loop run from a state satisfying the basic invariant. -/
theorem loop_basic (banks : List Bank) (fuel : Nat) (s : LoopState) (hs : Basic banks s)
    (hfuel : s.creditors.length + s.debtors.length ≤ fuel) :
    ∃ sf, whileLoop banks fuel s = .ok sf ∧ Basic banks sf ∧
      (sf.creditors = [] ∨ sf.debtors = []) ∧ BasicRun banks s (loopTrace banks fuel s) sf := by
  refine loop_rule banks (Basic banks) (BasicRun banks) (fun s h => sided_valid h.1) ?_ ?_ ?_
    fuel s hs hfuel
  · intro cred debt cs ds tx s1 hI h
    refine ⟨sided_step hI.1 h, ?_⟩
    obtain ⟨bc, bd, -, -, -, -, -, -, rfl⟩ := loopBody_sided hI.1 h
    exact isInt_wrapInt _
  · intro s hI hend
    refine ⟨?_, fun _ => rfl, ?_, ?_⟩
    · simp [traceCost, wrapInt_of_isInt hI.2]
    · intro h1 h2
      rcases hend with h | h
      · exact absurd h h1
      · exact absurd h h2
    · intro m hm
      cases hm
  · intro cred debt cs ds tx s1 ms sf hI h hrun
    obtain ⟨bc, bd, hbc, hbd, hbcpos, hbdneg, hcpos, hdneg, hs1⟩ := loopBody_sided hI.1 h
    obtain ⟨htx, hnil, hlen, hall⟩ := hrun
    have hlen1 := loopBody_length hdneg h
    refine ⟨?_, ?_, ?_, ?_⟩
    · rw [htx, hs1, traceCost_cons]
      simp only [matchCost, penaltyAt_eq hbc hbd]
      generalize traceCost ms = k
      split
      · unfold wrapInt
        omega
      · unfold wrapInt
        omega
    · intro hh
      rcases hh with hh | hh <;> cases hh
    · intro _ _
      simp only [List.length_cons]
      by_cases hc1 : s1.creditors = []
      · rw [hnil (Or.inl hc1)]
        simp only [List.length_nil]
        omega
      · by_cases hd1 : s1.debtors = []
        · rw [hnil (Or.inr hd1)]
          simp only [List.length_nil]
          omega
        · have := hlen hc1 hd1
          omega
    · intro m hm
      rcases List.mem_cons.mp hm with rfl | hm
      · exact ⟨bc, bd, hbc, hbd, hbcpos, hbdneg, penaltyAt_eq hbc hbd⟩
      · exact hall m hm

theorem isInt_zero : isInt 0 := by decide

theorem lookup_of_take {banks : List Bank} {n j : Nat} {b : Bank}
    (h : (banks.take n)[j]? = some b) : banks[j]? = some b := by
  rw [List.getElem?_take] at h
  split at h
  · exact h
  · cases h

/-- The queues built by the `for` loop satisfy the basic invariant. -/
theorem sided_of_fill {banks : List Bank} {n : Nat} {q : Queues}
    (hc : q.creditors.Perm (entriesFrom isPos 0 (banks.take n)))
    (hd : q.debtors.Perm (entriesFrom isNeg 0 (banks.take n))) :
    Sided banks ⟨q.creditors, q.debtors, 0⟩ := by
  constructor
  · intro e he
    obtain ⟨j, b, hj, hk, rfl⟩ := mem_entriesFrom (hc.mem_iff.mp he)
    have hpos : 0 < b.balance := by simpa [isPos] using hk
    exact ⟨b, by simpa using lookup_of_take hj, hpos, hpos⟩
  · intro e he
    obtain ⟨j, b, hj, hk, rfl⟩ := mem_entriesFrom (hd.mem_iff.mp he)
    have hneg : b.balance < 0 := by simpa [isNeg] using hk
    exact ⟨b, by simpa using lookup_of_take hj, hneg, hneg⟩

/-- Run of the solver on the first `n` banks: the `for` loop fills the queues,
the `while` loop stops within its budget with one queue empty, and the count
returned is the 32-bit reduction of the units charged by the iterations. -/
theorem solver_basic (banks : List Bank) (n : Nat) (hn : n ≤ banks.length) :
    ∃ q sf, fillQueues (n : Int) banks = .ok q ∧
      q.creditors.Perm (entriesFrom isPos 0 (banks.take n)) ∧
      q.debtors.Perm (entriesFrom isNeg 0 (banks.take n)) ∧
      finalState (n : Int) banks = .ok sf ∧
      optimizedSolver (n : Int) banks = .ok sf.txCount ∧
      (sf.creditors = [] ∨ sf.debtors = []) ∧
      Basic banks sf ∧
      BasicRun banks ⟨q.creditors, q.debtors, 0⟩ (solverTrace (n : Int) banks) sf := by
  obtain ⟨q, hq, hc, hd⟩ := fillQueues_spec banks n hn
  have hB : Basic banks ⟨q.creditors, q.debtors, 0⟩ := ⟨sided_of_fill hc hd, isInt_zero⟩
  obtain ⟨sf, hrun, hBf, hend, hR⟩ :=
    loop_basic banks (q.creditors.length + q.debtors.length) _ hB (le_refl _)
  have hfin : finalState (n : Int) banks = .ok sf := by
    simp only [finalState, hq, Outcome.bind]
    exact hrun
  refine ⟨q, sf, hq, hc, hd, hfin, ?_, hend, hBf, ?_⟩
  · simp only [optimizedSolver, hfin, Outcome.bind]
  · simpa only [solverTrace, hq] using hR

theorem nonzeroCount_eq (banks : List Bank) :
    nonzeroCount banks = creditorCount banks + debtorCount banks := by
  unfold nonzeroCount creditorCount debtorCount
  induction banks with
  | nil => rfl
  | cons b bs ih =>
    simp only [List.countP_cons, ih]
    rcases lt_trichotomy b.balance 0 with h | h | h
    · have h1 : ¬ (0 < b.balance) := by omega
      have h2 : b.balance ≠ 0 := by omega
      simp [h, h1, h2]
      omega
    · simp [h]
    · have h1 : ¬ (b.balance < 0) := by omega
      have h2 : b.balance ≠ 0 := by omega
      simp [h, h1, h2]
      omega

theorem matchCost_bounds (m : Match) : 1 ≤ matchCost m ∧ matchCost m ≤ 2 := by
  unfold matchCost
  split <;> omega

theorem traceCost_bounds (ms : List Match) :
    (ms.length : Int) ≤ traceCost ms ∧ traceCost ms ≤ 2 * ms.length := by
  induction ms with
  | nil => simp [traceCost]
  | cons m ms ih =>
    rw [traceCost_cons]
    have := matchCost_bounds m
    simp only [List.length_cons, Nat.cast_add, Nat.cast_one]
    omega

/-- Number of iterations of the solver: none when one side is absent,
otherwise fewer than the number of nonzero banks. -/
theorem solverTrace_length (banks : List Bank) (n : Nat) (hn : n ≤ banks.length) :
    (solverTrace (n : Int) banks).length ≤ nonzeroCount (banks.take n) - 1 ∧
    (creditorCount (banks.take n) = 0 ∨ debtorCount (banks.take n) = 0 →
      solverTrace (n : Int) banks = []) := by
  obtain ⟨q, sf, _, hc, hd, _, _, _, _, _, hnil, hlen, _⟩ := solver_basic banks n hn
  have hcl : q.creditors.length = creditorCount (banks.take n) := by
    rw [hc.length_eq, length_entriesFrom]; rfl
  have hdl : q.debtors.length = debtorCount (banks.take n) := by
    rw [hd.length_eq, length_entriesFrom]; rfl
  have hnil2 : creditorCount (banks.take n) = 0 ∨ debtorCount (banks.take n) = 0 →
      solverTrace (n : Int) banks = [] := by
    intro h
    apply hnil
    rcases h with h | h
    · left; exact List.eq_nil_of_length_eq_zero (by simp only; omega)
    · right; exact List.eq_nil_of_length_eq_zero (by simp only; omega)
  refine ⟨?_, hnil2⟩
  rw [nonzeroCount_eq]
  by_cases h0 : creditorCount (banks.take n) = 0 ∨ debtorCount (banks.take n) = 0
  · rw [hnil2 h0]
    simp
  · have h1 : q.creditors ≠ [] := by
      intro h; rw [h] at hcl; simp at hcl; omega
    have h2 : q.debtors ≠ [] := by
      intro h; rw [h] at hdl; simp at hdl; omega
    have := hlen h1 h2
    simp only at this
    omega

/-- The count returned is the 32-bit reduction of the units charged by the iterations. -/
theorem solver_result (banks : List Bank) (n : Nat) (hn : n ≤ banks.length) :
    optimizedSolver (n : Int) banks = .ok (wrapInt (traceCost (solverTrace (n : Int) banks))) := by
  obtain ⟨q, sf, _, _, _, _, hres, _, _, htx, _⟩ := solver_basic banks n hn
  rw [hres, htx]
  simp

/-- A negative `numBanks` behaves as zero: the `for` loop does not run. -/
theorem optimizedSolver_toNat (numBanks : Int) (banks : List Bank) :
    optimizedSolver numBanks banks = optimizedSolver (numBanks.toNat : Int) banks := by
  unfold optimizedSolver finalState fillQueues
  rw [Int.toNat_ofNat]

theorem fillStep_ok_of_lt (banks : List Bank) (q : Queues) {i : Nat} (h : i < banks.length) :
    ∃ q1, fillStep banks q i = .ok q1 := by
  unfold fillStep
  rw [List.getElem?_eq_getElem h]
  simp only
  split
  · exact ⟨_, rfl⟩
  · split
    · exact ⟨_, rfl⟩
    · exact ⟨_, rfl⟩

/-- Reading past the end of the vector: the `for` loop has no defined result. -/
theorem fillFrom_past_end (banks : List Bank) :
    ∀ (k i : Nat) (q : Queues), banks.length < i + k → 0 < k →
      fillFrom banks i k q = .outOfBounds := by
  intro k
  induction k with
  | zero =>
    intro i q _ h
    omega
  | succ k ih =>
    intro i q h _
    unfold fillFrom
    by_cases hi : i < banks.length
    · obtain ⟨q1, hq1⟩ := fillStep_ok_of_lt banks q hi
      rw [hq1]
      exact ih (i + 1) q1 (by omega) (by omega)
    · have hnone : banks[i]? = none := List.getElem?_eq_none (by omega)
      simp [fillStep, hnone, Outcome.bind]

/-- With `numBanks` above the length of the vector the solver reads past its end. -/
theorem solver_past_end (numBanks : Int) (banks : List Bank)
    (h : (banks.length : Int) < numBanks) :
    optimizedSolver numBanks banks = .outOfBounds := by
  have hf : fillQueues numBanks banks = .outOfBounds :=
    fillFrom_past_end banks numBanks.toNat 0 ⟨[], []⟩ (by omega) (by omega)
  simp [optimizedSolver, finalState, hf, Outcome.bind]

/-- Run of the three-bank input `hubPair`: one unit when the mode sets meet, two when not. -/
theorem hubPair_run (x : Int) (mA mB : ModeSet) (hx : 0 < x) (hlong : isLong x) :
    optimizedSolver 3 (hubPair x mA mB)
      = .ok (if (mA ∩ mB).Nonempty then 1 else 2) := by
  have hneg : -x < 0 := by omega
  have hnpos : ¬ (0 < -x) := by omega
  have habs : absLong (-x) = x := by
    unfold absLong
    rw [abs_neg, abs_of_pos hx]
    exact wrapLong_of_isLong hlong
  have h0 : wrapLong 0 = 0 := by decide
  have h1 : wrapInt 1 = 1 := by decide
  have h2 : wrapInt 2 = 2 := by decide
  have h3 : wrapInt (1 + 1) = 2 := by decide
  by_cases hs : (mA ∩ mB).Nonempty
  · have hs2 : ¬ (mB ∩ mA = ∅) := by
      rw [Finset.inter_comm]; exact Finset.nonempty_iff_ne_empty.mp hs
    simp [optimizedSolver, finalState, fillQueues, fillFrom, fillStep, hubPair, mkBank,
      Outcome.bind, pqPush, whileLoop, loopBody, matchAmount, penalised, hx, hneg, hnpos, habs,
      h0, h1, h2, hs, hs2]
  · have hs2 : mB ∩ mA = ∅ := by
      rw [Finset.inter_comm]; exact Finset.not_nonempty_iff_eq_empty.mp hs
    simp [optimizedSolver, finalState, fillQueues, fillFrom, fillStep, hubPair, mkBank,
      Outcome.bind, pqPush, whileLoop, loopBody, matchAmount, penalised, hx, hneg, hnpos, habs,
      h0, h1, h2, h3, hs, hs2]

/-- Claim C1: for every amount `x > 0` (a `long`) and mode sets `mA`, `mB` sharing a
mode, `optimizedSolver(3, [hub(0, all modes), A(-x, mA), B(x, mB)])` returns 1. -/
theorem direct_pair_returns_one (x : Int) (mA mB : ModeSet) (hx : 0 < x) (hlong : isLong x)
    (hshare : (mA ∩ mB).Nonempty) :
    optimizedSolver 3 (hubPair x mA mB) = .ok 1 := by
  rw [hubPair_run x mA mB hx hlong, if_pos hshare]

/-- Witness of C1: the test `DirectTransaction`, `x = 100`, both banks on mode 0. -/
theorem direct_pair_returns_one_witness :
    optimizedSolver 3 (hubPair 100 {0} {0}) = .ok 1 :=
  direct_pair_returns_one 100 {0} {0} (by decide) (by decide) (by decide)

/-- Claim C2: for every amount `x > 0` (a `long`) and mode sets `mA`, `mB` with empty
intersection, `optimizedSolver(3, [hub(0, all modes), A(-x, mA), B(x, mB)])`
returns 2: one unit for the settlement and one for the routing penalty. -/
theorem mismatched_pair_returns_two (x : Int) (mA mB : ModeSet) (hx : 0 < x) (hlong : isLong x)
    (hdisj : mA ∩ mB = ∅) :
    optimizedSolver 3 (hubPair x mA mB) = .ok 2 := by
  rw [hubPair_run x mA mB hx hlong, if_neg (Finset.not_nonempty_iff_eq_empty.mpr hdisj)]

/-- Witness of C2: the test `RoutesViaRBI_WhenModesMismatch`, modes 0 and 2. -/
theorem mismatched_pair_returns_two_witness :
    optimizedSolver 3 (hubPair 100 {0} {2}) = .ok 2 :=
  mismatched_pair_returns_two 100 {0} {2} (by decide) (by decide) (by decide)

theorem countP_eq_zero_of_all_zero {banks : List Bank} (hzero : ∀ b ∈ banks, b.balance = 0) :
    creditorCount banks = 0 := by
  unfold creditorCount
  rw [List.countP_eq_zero]
  intro b hb
  simp [hzero b hb]

/-- Claim C3: for every list of banks whose balances are all 0, whatever its length,
names and mode sets, `optimizedSolver(n, banks)` with `n` the length returns 0. -/
theorem all_zero_returns_zero (banks : List Bank) (hzero : ∀ b ∈ banks, b.balance = 0) :
    optimizedSolver (banks.length : Int) banks = .ok 0 := by
  rw [solver_result banks banks.length (le_refl _)]
  have h := (solverTrace_length banks banks.length (le_refl _)).2
  rw [List.take_length] at h
  rw [h (Or.inl (countP_eq_zero_of_all_zero hzero))]
  rfl

/-- Witness of C3: the three banks of `CircularDebtResolvesToZero` and the
1000 banks of `HandlesLargeInputsWithoutCrash`. -/
theorem all_zero_returns_zero_witness :
    optimizedSolver 3 circularDebtBanks = .ok 0 ∧
    optimizedSolver 1000 (largeZeroBanks 1000) = .ok 0 := by
  constructor
  · exact all_zero_returns_zero circularDebtBanks (by decide)
  · have h := all_zero_returns_zero (largeZeroBanks 1000)
      (by intro b hb; simp only [largeZeroBanks, List.mem_map] at hb
          obtain ⟨i, _, rfl⟩ := hb; rfl)
    simpa [largeZeroBanks] using h

/-- Claim C4 as amended: for every list of banks with at most `2^30` banks of nonzero
balance (whether or not the balances sum to zero), `optimizedSolver` called
with the length of the list terminates and returns a count `r` with
`0 ≤ r ≤ 2 * N`, `N` the number of banks of nonzero balance. -/
theorem count_within_twice_nonzero (banks : List Bank) (hN : nonzeroCount banks ≤ 2 ^ 30) :
    ∃ r, optimizedSolver (banks.length : Int) banks = .ok r ∧
      0 ≤ r ∧ r ≤ 2 * (nonzeroCount banks : Int) := by
  have hlen := (solverTrace_length banks banks.length (le_refl _)).1
  rw [List.take_length] at hlen
  have hcost := traceCost_bounds (solverTrace (banks.length : Int) banks)
  have hrange : isInt (traceCost (solverTrace (banks.length : Int) banks)) := by
    unfold isInt
    have : (2 : Int) ^ 31 = 2147483648 := by norm_num
    have h30 : (2 : Nat) ^ 30 = 1073741824 := by norm_num
    omega
  refine ⟨_, solver_result banks banks.length (le_refl _), ?_, ?_⟩
  · rw [wrapInt_of_isInt hrange]; omega
  · rw [wrapInt_of_isInt hrange]; omega

/-- Witness of C4 (amended): the two banks of nonzero balance of `hubPair`. -/
theorem count_within_twice_nonzero_witness :
    ∃ r, optimizedSolver ((hubPair 100 {0} {2}).length : Int) (hubPair 100 {0} {2}) = .ok r ∧
      0 ≤ r ∧ r ≤ 2 * (nonzeroCount (hubPair 100 {0} {2}) : Int) :=
  count_within_twice_nonzero (hubPair 100 {0} {2}) (by decide)

/-- The loop on one debtor at index 1 owing as many units as there are
creditors, each owed 1 and none sharing a mode with it: every creditor costs
two units. -/
theorem star_loop (banks : List Bank) (bd : Bank) (hbd : banks[1]? = some bd) :
    ∀ (cs : List Entry) (tx : Int) (fuel : Nat), cs ≠ [] → (cs.length : Int) < 2 ^ 63 →
      cs.length + 1 ≤ fuel →
      (∀ e ∈ cs, e.1 = 1 ∧ e.2 ≠ 0 ∧
        ∃ bc, banks[e.2]? = some bc ∧ bc.optimizedModes ∩ bd.optimizedModes = ∅) →
      ∃ sf, whileLoop banks fuel ⟨cs, [(-(cs.length : Int), 1)], tx⟩ = .ok sf ∧
        sf.txCount = wrapInt (tx + 2 * (cs.length : Int)) := by
  intro cs
  induction cs with
  | nil => intro tx fuel h; exact absurd rfl h
  | cons cred cs ih =>
    intro tx fuel _ hlong hfuel hall
    obtain ⟨hc1, hc0, bc, hbc, hdisj⟩ := hall cred (List.mem_cons_self _ _)
    obtain ⟨fuel, rfl⟩ : ∃ f, fuel = f + 1 := ⟨fuel - 1, by omega⟩
    have hL : ((cred :: cs).length : Int) = (cs.length : Int) + 1 := by simp
    have hbd' : banks[((-((cred :: cs).length : Int), 1) : Entry).2]? = some bd := hbd
    rw [whileLoop_succ, loopBody_ok hbc hbd']
    have habs : absLong (-((cred :: cs).length : Int)) = (cs.length : Int) + 1 := by
      rw [absLong_of_neg (by omega), neg_neg, hL]
      exact wrapLong_of_isLong ⟨by omega, by omega⟩
    have hamt : matchAmount cred (-((cred :: cs).length : Int), 1) = 1 := by
      simp only [matchAmount, habs, hc1]
      omega
    have hpen : penalised cred (-((cred :: cs).length : Int), 1) bc bd = true := by
      simp [penalised, hc0, hdisj]
    have hcf : wrapLong (cred.1 - 1) = 0 := by rw [hc1]; decide
    have hdf : wrapLong (-((cred :: cs).length : Int) + 1) = -(cs.length : Int) := by
      rw [hL]
      have : -((cs.length : Int) + 1) + 1 = -(cs.length : Int) := by ring
      rw [this]
      exact wrapLong_of_isLong ⟨by omega, by omega⟩
    simp only [hamt, hpen, hcf, hdf, lt_irrefl, if_false, if_true, Outcome.bind]
    cases cs with
    | nil =>
      refine ⟨_, whileLoop_stop_left _ _ _ _, ?_⟩
      simp only [List.length_singleton, Nat.cast_one]
      unfold wrapInt
      omega
    | cons c2 cs2 =>
      have hneg : -(((c2 :: cs2).length : Nat) : Int) < 0 := by simp; omega
      simp only [hneg, if_true, pqPush]
      obtain ⟨sf, hrun, htx⟩ := ih (wrapInt (wrapInt (tx + 1) + 1)) fuel (by simp) (by omega)
        (by simp only [List.length_cons] at hfuel ⊢; omega)
        (fun e he => hall e (List.mem_cons_of_mem _ he))
      refine ⟨sf, hrun, ?_⟩
      rw [htx, hL]
      generalize ((c2 :: cs2).length : Int) = k
      unfold wrapInt
      omega

theorem starBanks_length (K : Nat) : (starBanks K).length = K + 2 := by
  simp [starBanks]

theorem starBanks_total (K : Nat) : totalBalance (starBanks K) = 0 := by
  simp [starBanks, totalBalance, mkBank]

theorem starBanks_nonzero (K : Nat) (hK : 0 < K) : nonzeroCount (starBanks K) = K + 1 := by
  have hK0 : K ≠ 0 := by omega
  simp [starBanks, nonzeroCount, mkBank, List.countP_cons, List.countP_replicate, hK0]

theorem starBanks_debtors (K : Nat) (hK : 0 < K) :
    entriesFrom isNeg 0 (starBanks K) = [(-(K : Int), 1)] := by
  have hrep : entriesFrom isNeg 2 (List.replicate K (mkBank "C" 1 {2})) = [] := by
    apply List.eq_nil_of_length_eq_zero
    rw [length_entriesFrom, List.countP_replicate]
    simp [isNeg, mkBank]
  have hneg : -(K : Int) < 0 := by omega
  simp only [mkBank] at hrep
  simp [starBanks, entriesFrom, isNeg, mkBank, hneg, hrep]

theorem starBanks_creditors (K : Nat) {e : Entry}
    (he : e ∈ entriesFrom isPos 0 (starBanks K)) :
    e.1 = 1 ∧ e.2 ≠ 0 ∧ ∃ bc, (starBanks K)[e.2]? = some bc ∧
      bc.optimizedModes ∩ (mkBank "D" (-(K : Int)) {0}).optimizedModes = ∅ := by
  obtain ⟨j, b, hj, hk, rfl⟩ := mem_entriesFrom he
  have hpos : 0 < b.balance := by simpa [isPos] using hk
  match j, hj with
  | 0, hj =>
    simp [starBanks, mkBank] at hj
    rw [← hj] at hpos
    simp at hpos
  | 1, hj =>
    simp [starBanks, mkBank] at hj
    rw [← hj] at hpos
    simp at hpos
    omega
  | j + 2, hj =>
    have hj2 := hj
    simp only [starBanks, List.getElem?_cons_succ, List.getElem?_replicate] at hj2
    split at hj2
    · injection hj2 with hj2
      subst hj2
      refine ⟨rfl, by simp, _, by simpa using hj, ?_⟩
      show ({2} : ModeSet) ∩ {0} = ∅
      decide
    · cases hj2

theorem starBanks_creditor_count (K : Nat) :
    (entriesFrom isPos 0 (starBanks K)).length = K := by
  rw [length_entriesFrom]
  simp [starBanks, mkBank, isPos, List.countP_cons, List.countP_replicate]

/-- Run of the solver on `starBanks K`: `K` iterations, all penalised. -/
theorem star_result (K : Nat) (hK : 0 < K) (hlong : (K : Int) < 2 ^ 63) :
    optimizedSolver ((K : Int) + 2) (starBanks K) = .ok (wrapInt (2 * (K : Int))) := by
  obtain ⟨q, hq, hc, hd⟩ := fillQueues_spec (starBanks K) (K + 2) (by rw [starBanks_length])
  rw [List.take_of_length_le (by rw [starBanks_length])] at hc hd
  rw [starBanks_debtors K hK] at hd
  have hd' : q.debtors = [(-(K : Int), 1)] := List.perm_singleton.mp hd
  have hlen : q.creditors.length = K := by rw [hc.length_eq, starBanks_creditor_count]
  have hne : q.creditors ≠ [] := by
    intro h; rw [h] at hlen; simp at hlen; omega
  have hloop := star_loop (starBanks K) (mkBank "D" (-(K : Int)) {0})
    (by simp [starBanks]) q.creditors 0
    (q.creditors.length + q.debtors.length) hne (by rw [hlen]; exact hlong)
    (by rw [hd']; simp)
    (fun e he => starBanks_creditors K (hc.mem_iff.mp he))
  rw [hlen] at hloop
  obtain ⟨sf, hrun, htx⟩ := hloop
  have hcast : ((K : Int) + 2) = ((K + 2 : Nat) : Int) := by push_cast; rfl
  rw [hcast]
  simp only [optimizedSolver, finalState, hq, Outcome.bind, hd', hlen]
  rw [hd'] at hrun
  rw [hrun]
  simp only [htx, zero_add]

/-- Counterexample to C4: on `starBanks (2^30)` (balances summing to zero,
`2^30 + 1` banks of nonzero balance, `numBanks` the length `2^30 + 2`) the
32-bit counter is incremented `2^31` times and the count returned is `-2^31`,
which is not in `[0, 2 * N]`. -/
theorem star_count_is_negative :
    totalBalance (starBanks (2 ^ 30)) = 0 ∧
    ((starBanks (2 ^ 30)).length : Int) = 2 ^ 30 + 2 ∧
    nonzeroCount (starBanks (2 ^ 30)) = 2 ^ 30 + 1 ∧
    optimizedSolver (2 ^ 30 + 2) (starBanks (2 ^ 30)) = .ok (-2147483648) ∧
    ¬ ((0 : Int) ≤ -2147483648) := by
  refine ⟨starBanks_total _, ?_, starBanks_nonzero _ (by norm_num), ?_, by norm_num⟩
  · rw [starBanks_length]
    norm_num
  · have h := star_result (2 ^ 30) (by norm_num) (by norm_num)
    have e1 : (((2 ^ 30 : Nat) : Int) + 2) = 2 ^ 30 + 2 := by norm_num
    have e2 : wrapInt (2 * ((2 ^ 30 : Nat) : Int)) = -2147483648 := by
      unfold wrapInt
      norm_num
    rw [e1, e2] at h
    exact h

theorem exact_step {c d : Int} (hc : 0 < c) (hc2 : c < 2 ^ 63) (hd : -2 ^ 63 < d) (hd2 : d < 0)
    (i j : Nat) :
    ∃ a, matchAmount (c, i) (d, j) = a ∧ a = min c (-d) ∧
      wrapLong (c - a) = c - a ∧ wrapLong (d + a) = d + a ∧
      0 < a ∧ a ≤ c ∧ a ≤ -d ∧ (a = c ∨ a = -d) := by
  have habs : absLong d = -d := by
    rw [absLong_of_neg hd2]
    exact wrapLong_of_isLong ⟨by omega, by omega⟩
  have hm : matchAmount (c, i) (d, j) = min c (-d) := by
    simp only [matchAmount, habs]
  have h1 : min c (-d) ≤ c := min_le_left _ _
  have h2 : min c (-d) ≤ -d := min_le_right _ _
  have h3 : min c (-d) = c ∨ min c (-d) = -d := min_choice _ _
  have h4 : 0 < min c (-d) := lt_min hc (by omega)
  refine ⟨min c (-d), hm, rfl, ?_, ?_, h4, h1, h2, h3⟩
  · generalize min c (-d) = a at *
    exact wrapLong_of_isLong ⟨by omega, by omega⟩
  · generalize min c (-d) = a at *
    exact wrapLong_of_isLong ⟨by omega, by omega⟩

theorem heldBy_perm {i : Nat} {l₁ l₂ : List Entry} (h : l₁.Perm l₂) :
    heldBy i l₁ = heldBy i l₂ := by
  unfold heldBy
  exact ((h.filter _).map Prod.fst).sum_eq

theorem heldBy_cons (i : Nat) (x : Entry) (l : List Entry) :
    heldBy i (x :: l) = (if x.2 = i then x.1 else 0) + heldBy i l := by
  unfold heldBy
  by_cases h : x.2 = i
  · simp [List.filter_cons, h]
  · simp [List.filter_cons, h]

theorem heldBy_pqPush (before : Entry → Entry → Bool) (i : Nat) (x : Entry) (l : List Entry) :
    heldBy i (pqPush before x l) = (if x.2 = i then x.1 else 0) + heldBy i l := by
  rw [heldBy_perm (pqPush_perm before x l), heldBy_cons]

theorem queueSum_cons (x : Entry) (l : List Entry) : queueSum (x :: l) = x.1 + queueSum l := by
  simp [queueSum]

theorem netReceived_cons (t : Transfer) (ts : List Transfer) (i : Nat) :
    netReceived (t :: ts) i
      = (if t.payee = i then t.amount else 0) - (if t.payer = i then t.amount else 0)
        + netReceived ts i := by
  simp [netReceived]

theorem exact_preserved {banks : List Bank} {T : Int} {cred debt : Entry} {cs ds : List Entry}
    {tx : Int} {s1 : LoopState} (hs : Exact banks T ⟨cred :: cs, debt :: ds, tx⟩)
    (h : loopBody banks cred debt cs ds tx = .ok s1) :
    Exact banks T s1 ∧
    (⟨cred, debt, matchAmount cred debt, penaltyAt banks cred debt⟩ : Match).exact ∧
    ∀ i, working ⟨cred :: cs, debt :: ds, tx⟩ i = working s1 i
      + ((if cred.2 = i then matchAmount cred debt else 0)
          - (if debt.2 = i then matchAmount cred debt else 0)) := by
  obtain ⟨hS, hR, hT⟩ := hs
  have hS1 := sided_step hS h
  obtain ⟨bc, bd, hbc, hbd, hbcpos, hbdneg, hcpos, hdneg, rfl⟩ := loopBody_sided hS h
  have hc2 : cred.1 < 2 ^ 63 := hR.1 cred (List.mem_cons_self _ _)
  have hd2 : -2 ^ 63 < debt.1 := hR.2 debt (List.mem_cons_self _ _)
  obtain ⟨ci, cidx⟩ := cred
  obtain ⟨di, didx⟩ := debt
  simp only at hcpos hdneg hc2 hd2
  obtain ⟨a, hm, hmin, hcw, hdw, ha0, hac, had, hor⟩ :=
    exact_step hcpos hc2 hd2 hdneg cidx didx
  simp only [hm] at hS1 ⊢
  refine ⟨⟨hS1, ⟨?_, ?_⟩, ?_⟩, ⟨hcpos, hc2, hd2, hdneg, hmin⟩, ?_⟩
  · intro e he
    simp only [hm, hcw] at he
    split at he
    · rcases mem_pqPush.mp he with rfl | he
      · simp only; omega
      · exact hR.1 e (List.mem_cons_of_mem _ he)
    · exact hR.1 e (List.mem_cons_of_mem _ he)
  · intro e he
    simp only [hm, hdw] at he
    split at he
    · rcases mem_pqPush.mp he with rfl | he
      · simp only; omega
      · exact hR.2 e (List.mem_cons_of_mem _ he)
    · exact hR.2 e (List.mem_cons_of_mem _ he)
  · simp only [hm, hcw, hdw]
    simp only [queueSum_cons] at hT
    split_ifs <;> (try simp only [queueSum_pqPush]) <;> omega
  · intro i
    simp only [working, hm, hcw, hdw, heldBy_cons]
    split_ifs <;> (try simp only [heldBy_pqPush]) <;> (try split_ifs) <;> omega

/-- The loop run from a state satisfying `Exact`. -/
theorem loop_exact (banks : List Bank) (T : Int) (fuel : Nat) (s : LoopState)
    (hs : Exact banks T s) (hfuel : s.creditors.length + s.debtors.length ≤ fuel) :
    ∃ sf, whileLoop banks fuel s = .ok sf ∧ Exact banks T sf ∧
      (sf.creditors = [] ∨ sf.debtors = []) ∧ ExactRun s (loopTrace banks fuel s) sf := by
  refine loop_rule banks (Exact banks T) ExactRun (fun s h => sided_valid h.1) ?_ ?_ ?_
    fuel s hs hfuel
  · intro cred debt cs ds tx s1 hI h
    exact (exact_preserved hI h).1
  · intro s _ _
    refine ⟨fun i => by simp [netReceived], fun m hm => by cases hm⟩
  · intro cred debt cs ds tx s1 ms sf hI h hrun
    obtain ⟨_, hex, hw⟩ := exact_preserved hI h
    refine ⟨fun i => ?_, ?_⟩
    · rw [hw i, hrun.1 i, List.map_cons, netReceived_cons]
      simp only [Match.transfer]
      ring
    · intro m hm
      rcases List.mem_cons.mp hm with rfl | hm
      · exact hex
      · exact hrun.2 m hm

theorem queueSum_pos {l : List Entry} (h : ∀ e ∈ l, 0 < e.1) (hne : l ≠ []) : 0 < queueSum l := by
  induction l with
  | nil => exact absurd rfl hne
  | cons x xs ih =>
    rw [queueSum_cons]
    have hx := h x (List.mem_cons_self _ _)
    by_cases hxs : xs = []
    · subst hxs
      simp [queueSum]
      exact hx
    · have := ih (fun e he => h e (List.mem_cons_of_mem _ he)) hxs
      omega

theorem queueSum_neg {l : List Entry} (h : ∀ e ∈ l, e.1 < 0) (hne : l ≠ []) : queueSum l < 0 := by
  induction l with
  | nil => exact absurd rfl hne
  | cons x xs ih =>
    rw [queueSum_cons]
    have hx := h x (List.mem_cons_self _ _)
    by_cases hxs : xs = []
    · subst hxs
      simp [queueSum]
      exact hx
    · have := ih (fun e he => h e (List.mem_cons_of_mem _ he)) hxs
      omega

/-- With total zero, a state in which one queue is empty has both queues empty. -/
theorem exact_both_empty {banks : List Bank} {sf : LoopState} (h : Exact banks 0 sf)
    (hend : sf.creditors = [] ∨ sf.debtors = []) : sf.creditors = [] ∧ sf.debtors = [] := by
  obtain ⟨hS, _, hT⟩ := h
  have hcpos : ∀ e ∈ sf.creditors, 0 < e.1 := fun e he => by
    obtain ⟨_, _, _, h⟩ := hS.1 e he; exact h
  have hdneg : ∀ e ∈ sf.debtors, e.1 < 0 := fun e he => by
    obtain ⟨_, _, _, h⟩ := hS.2 e he; exact h
  rcases hend with hc | hd
  · refine ⟨hc, ?_⟩
    by_contra hne
    have := queueSum_neg hdneg hne
    rw [hc] at hT
    simp [queueSum] at hT this
    omega
  · refine ⟨?_, hd⟩
    by_contra hne
    have := queueSum_pos hcpos hne
    rw [hd] at hT
    simp [queueSum] at hT this
    omega

theorem queueSum_entriesFrom (bs : List Bank) :
    ∀ k, queueSum (entriesFrom isPos k bs) + queueSum (entriesFrom isNeg k bs)
      = totalBalance bs := by
  induction bs with
  | nil => intro k; simp [entriesFrom, queueSum, totalBalance]
  | cons b bs ih =>
    intro k
    have h := ih (k + 1)
    have ht : totalBalance (b :: bs) = b.balance + totalBalance bs := by simp [totalBalance]
    rw [ht]
    unfold entriesFrom
    rcases lt_trichotomy b.balance 0 with hb | hb | hb
    · have hnp : ¬ (0 < b.balance) := by omega
      simp only [isPos, isNeg, hb, hnp, decide_True, decide_False, if_true, if_false,
        queueSum_cons, Bool.false_eq_true] at h ⊢
      omega
    · have hnp : ¬ (0 < b.balance) := by omega
      have hnn : ¬ (b.balance < 0) := by omega
      simp only [isPos, isNeg, hnn, hnp, decide_False, if_false, Bool.false_eq_true] at h ⊢
      omega
    · have hnn : ¬ (b.balance < 0) := by omega
      simp only [isPos, isNeg, hb, hnn, decide_True, decide_False, if_true, if_false,
        queueSum_cons, Bool.false_eq_true] at h ⊢
      omega

theorem heldBy_entriesFrom (i : Nat) (bs : List Bank) :
    ∀ k, heldBy i (entriesFrom isPos k bs) + heldBy i (entriesFrom isNeg k bs)
      = if k ≤ i then (bs.map Bank.balance).getD (i - k) 0 else 0 := by
  induction bs with
  | nil => intro k; simp [entriesFrom, heldBy]
  | cons b bs ih =>
    intro k
    have h := ih (k + 1)
    have hnil : heldBy i ([] : List Entry) = 0 := rfl
    unfold entriesFrom
    by_cases hk : k ≤ i
    · by_cases hki : k = i
      · subst hki
        have hlt : ¬ (k + 1 ≤ k) := by omega
        rw [if_neg hlt] at h
        simp only [le_refl, if_true, Nat.sub_self, List.map_cons, List.getD_cons_zero]
        rcases lt_trichotomy b.balance 0 with hb | hb | hb
        · have hnp : ¬ (0 < b.balance) := by omega
          simp only [isPos, isNeg, hb, hnp, decide_True, decide_False, if_true, if_false,
            heldBy_cons, Bool.false_eq_true] at h ⊢
          omega
        · have hnp : ¬ (0 < b.balance) := by omega
          have hnn : ¬ (b.balance < 0) := by omega
          simp only [isPos, isNeg, hnn, hnp, decide_False, if_false, Bool.false_eq_true] at h ⊢
          omega
        · have hnn : ¬ (b.balance < 0) := by omega
          simp only [isPos, isNeg, hb, hnn, decide_True, decide_False, if_true, if_false,
            heldBy_cons, Bool.false_eq_true] at h ⊢
          omega
      · have hlt : k + 1 ≤ i := by omega
        have hne : ¬ (k = i) := hki
        rw [if_pos hlt] at h
        rw [if_pos hk]
        have hidx : i - k = (i - (k + 1)) + 1 := by omega
        rw [hidx, List.map_cons, List.getD_cons_succ, ← h]
        by_cases hp : isPos b.balance = true <;> by_cases hq : isNeg b.balance = true <;>
          simp only [hp, hq, if_true, if_false, heldBy_cons, hne, Bool.false_eq_true] <;> omega
    · have hlt : ¬ (k + 1 ≤ i) := by omega
      have hne : ¬ (k = i) := by omega
      rw [if_neg hlt] at h
      rw [if_neg hk, ← h]
      by_cases hp : isPos b.balance = true <;> by_cases hq : isNeg b.balance = true <;>
        simp only [hp, hq, if_true, if_false, heldBy_cons, hne, Bool.false_eq_true] <;> omega

theorem noOverflow_of_exact {m : Match} (h : m.exact) : m.noOverflow := by
  obtain ⟨h1, h2, h3, h4, h5⟩ := h
  have habs : |m.debt.1| = -m.debt.1 := abs_of_neg h4
  have hle1 : min m.cred.1 (-m.debt.1) ≤ m.cred.1 := min_le_left _ _
  have hle2 : min m.cred.1 (-m.debt.1) ≤ -m.debt.1 := min_le_right _ _
  have hpos : 0 < min m.cred.1 (-m.debt.1) := lt_min h1 (by omega)
  unfold Match.noOverflow isLong
  rw [habs, h5]
  generalize min m.cred.1 (-m.debt.1) = a at *
  refine ⟨⟨by omega, by omega⟩, rfl, ⟨by omega, by omega⟩, ⟨by omega, by omega⟩⟩

/-- Run of the solver on the first `n` banks when their balances are above
`-2^63`: no iteration overflows, the queues keep the input total, and the
input balance of every bank is its final working balance plus what the
matched transfers gave it. -/
theorem solver_exact (banks : List Bank) (n : Nat) (hn : n ≤ banks.length)
    (hrange : AboveMin (banks.take n)) :
    ∃ sf, finalState (n : Int) banks = .ok sf ∧
      Exact banks (totalBalance (banks.take n)) sf ∧
      (sf.creditors = [] ∨ sf.debtors = []) ∧
      (∀ m ∈ solverTrace (n : Int) banks, m.exact) ∧
      (∀ i, ((banks.take n).map Bank.balance).getD i 0
        = working sf i + netReceived ((solverTrace (n : Int) banks).map Match.transfer) i) := by
  obtain ⟨q, hq, hc, hd⟩ := fillQueues_spec banks n hn
  have hE : Exact banks (totalBalance (banks.take n)) ⟨q.creditors, q.debtors, 0⟩ := by
    refine ⟨sided_of_fill hc hd, ⟨?_, ?_⟩, ?_⟩
    · intro e he
      obtain ⟨j, b, hj, _, rfl⟩ := mem_entriesFrom (hc.mem_iff.mp he)
      exact (hrange b (List.getElem?_mem hj)).2
    · intro e he
      obtain ⟨j, b, hj, _, rfl⟩ := mem_entriesFrom (hd.mem_iff.mp he)
      exact (hrange b (List.getElem?_mem hj)).1
    · simp only
      rw [queueSum_perm hc, queueSum_perm hd]
      exact queueSum_entriesFrom _ 0
  obtain ⟨sf, hrun, hEf, hend, hR⟩ :=
    loop_exact banks _ (q.creditors.length + q.debtors.length) _ hE (le_refl _)
  have hfin : finalState (n : Int) banks = .ok sf := by
    simp only [finalState, hq, Outcome.bind]
    exact hrun
  have htr : solverTrace (n : Int) banks
      = loopTrace banks (q.creditors.length + q.debtors.length)
          ⟨q.creditors, q.debtors, 0⟩ := by
    simp only [solverTrace, hq]
  refine ⟨sf, hfin, hEf, hend, ?_, ?_⟩
  · rw [htr]; exact hR.2
  · intro i
    rw [htr, ← hR.1 i]
    have h0 := heldBy_entriesFrom i (banks.take n) 0
    simp only [Nat.zero_le, if_true, Nat.sub_zero] at h0
    rw [← h0]
    simp only [working]
    rw [heldBy_perm hc, heldBy_perm hd]

theorem finalState_result {numBanks : Int} {banks : List Bank} {sf : LoopState}
    (h : finalState numBanks banks = .ok sf) :
    optimizedSolver numBanks banks = .ok sf.txCount := by
  simp only [optimizedSolver, h, Outcome.bind]

/-- The transfers of the iterations are between distinct banks of the list. -/
theorem solverTrace_transfers (banks : List Bank) (n : Nat) (hn : n ≤ banks.length) :
    ∀ m ∈ solverTrace (n : Int) banks,
      m.debt.2 ≠ m.cred.2 ∧ m.debt.2 < banks.length ∧ m.cred.2 < banks.length := by
  obtain ⟨q, sf, _, _, _, _, _, _, _, _, _, _, hall⟩ := solver_basic banks n hn
  intro m hm
  obtain ⟨bc, bd, hbc, hbd, hpos, hneg, _⟩ := hall m hm
  refine ⟨?_, lt_length_of_lookup hbd, lt_length_of_lookup hbc⟩
  intro heq
  rw [heq, hbc] at hbd
  injection hbd with hbd
  subst hbd
  omega

/-- When the balances sum to zero and are above `-2^63`, the loop stops with
both queues empty and the matched transfers bring every balance to zero. -/
theorem solver_clears (banks : List Bank) (hsum : totalBalance banks = 0)
    (hrange : AboveMin banks) :
    ∃ sf, finalState (banks.length : Int) banks = .ok sf ∧
      sf.creditors = [] ∧ sf.debtors = [] ∧
      Clears (banks.map Bank.balance)
        ((solverTrace (banks.length : Int) banks).map Match.transfer) := by
  have hr : AboveMin (banks.take banks.length) := by rw [List.take_length]; exact hrange
  obtain ⟨sf, hfin, hE, hend, hex, hw⟩ := solver_exact banks banks.length (le_refl _) hr
  rw [List.take_length] at hE hw
  rw [hsum] at hE
  obtain ⟨hc, hd⟩ := exact_both_empty hE hend
  refine ⟨sf, hfin, hc, hd, ⟨?_, ?_⟩⟩
  · intro t ht
    obtain ⟨m, hm, rfl⟩ := List.mem_map.mp ht
    obtain ⟨h1, h2, h3⟩ := solverTrace_transfers banks banks.length (le_refl _) m hm
    obtain ⟨e1, _, _, e4, e5⟩ := hex m hm
    refine ⟨?_, h1, by simpa using h2, by simpa using h3⟩
    simp only [Match.transfer, e5]
    exact lt_min e1 (by omega)
  · intro i _
    rw [hw i]
    simp [working, hc, hd, heldBy]

theorem traceCost_unpenalised {ms : List Match} (h : ∀ m ∈ ms, m.penalty = false) :
    traceCost ms = ms.length := by
  induction ms with
  | nil => simp [traceCost]
  | cons m ms ih =>
    rw [traceCost_cons, ih (fun x hx => h x (List.mem_cons_of_mem _ hx))]
    have hm := h m (List.mem_cons_self _ _)
    simp only [matchCost, hm, List.length_cons, Nat.cast_add, Nat.cast_one]
    simp only [Bool.false_eq_true, if_false]
    ring

/-- Under `PairsCompatible` no iteration charges the penalty. -/
theorem no_penalty_of_compatible (banks : List Bank) (n : Nat) (hn : n ≤ banks.length)
    (hpairs : PairsCompatible banks) :
    ∀ m ∈ solverTrace (n : Int) banks, m.penalty = false := by
  obtain ⟨q, sf, _, _, _, _, _, _, _, _, _, _, hall⟩ := solver_basic banks n hn
  intro m hm
  obtain ⟨bc, bd, hbc, hbd, hpos, hneg, hpen⟩ := hall m hm
  obtain ⟨hi, hci⟩ := List.getElem?_eq_some.mp hbc
  obtain ⟨hj, hdj⟩ := List.getElem?_eq_some.mp hbd
  have h := hpairs ⟨m.cred.2, hi⟩ ⟨m.debt.2, hj⟩
    (by rw [List.get_eq_getElem]; simp only [hci]; exact hpos)
    (by rw [List.get_eq_getElem]; simp only [hdj]; exact hneg)
  simp only [List.get_eq_getElem, hci, hdj] at h
  rw [hpen]
  rcases h with h | h | h
  · simp [penalised, h]
  · simp [penalised, h]
  · simp [penalised, h]

/-- Under `PairsCompatible`, for a vector whose length is an `int`, the count
is the number of iterations. -/
theorem solver_unpenalised (banks : List Bank) (hint : isInt (banks.length : Int))
    (hpairs : PairsCompatible banks) :
    (∀ m ∈ solverTrace (banks.length : Int) banks, m.penalty = false) ∧
    optimizedSolver (banks.length : Int) banks
      = .ok ((solverTrace (banks.length : Int) banks).length : Int) ∧
    (solverTrace (banks.length : Int) banks).length ≤ nonzeroCount banks - 1 := by
  have hpen := no_penalty_of_compatible banks banks.length (le_refl _) hpairs
  have hlen := (solverTrace_length banks banks.length (le_refl _)).1
  rw [List.take_length] at hlen
  refine ⟨hpen, ?_, hlen⟩
  rw [solver_result banks banks.length (le_refl _), traceCost_unpenalised hpen]
  have hle : nonzeroCount banks ≤ banks.length := List.countP_le_length _
  rw [wrapInt_of_isInt]
  unfold isInt at hint ⊢
  omega

theorem pairsCompatible_of_common_mode {banks : List Bank}
    (h : ∃ mode, ∀ b ∈ banks, mode ∈ b.optimizedModes) : PairsCompatible banks := by
  obtain ⟨mode, hmode⟩ := h
  intro i j _ _
  right; right
  exact ⟨mode, Finset.mem_inter.mpr
    ⟨hmode _ (List.get_mem _ _ _), hmode _ (List.get_mem _ _ _)⟩⟩

/-- Counterexample to C5: the balances of `minLongBanks` sum to zero, yet the
loop stops with the creditor `(1, 1)` still in the creditor collection. -/
theorem min_long_leaves_creditor :
    totalBalance minLongBanks = 0 ∧
    finalState 3 minLongBanks = .ok ⟨[(1, 1)], [], 1⟩ := by decide

/-- Claim C5 as amended: for every list of banks whose balances sum to zero and are
all above `-2^63` (`numBanks` the length of the list), when the loop of
`optimizedSolver` stops both the creditor and the debtor collection are
empty, no bank has a working balance left, and the matched transfers bring
every balance to exactly zero. -/
theorem zero_sum_empties_both_queues (banks : List Bank) (hsum : totalBalance banks = 0)
    (hrange : AboveMin banks) :
    ∃ sf, finalState (banks.length : Int) banks = .ok sf ∧
      sf.creditors = [] ∧ sf.debtors = [] ∧ (∀ i, working sf i = 0) ∧
      Clears (banks.map Bank.balance)
        ((solverTrace (banks.length : Int) banks).map Match.transfer) := by
  obtain ⟨sf, hfin, hc, hd, hclr⟩ := solver_clears banks hsum hrange
  exact ⟨sf, hfin, hc, hd, fun i => by simp [working, hc, hd, heldBy], hclr⟩

/-- Witness of C5 (amended): the six banks of `greedyBanks`. -/
theorem zero_sum_empties_both_queues_witness :
    ∃ sf, finalState (greedyBanks.length : Int) greedyBanks = .ok sf ∧
      sf.creditors = [] ∧ sf.debtors = [] ∧ (∀ i, working sf i = 0) ∧
      Clears (greedyBanks.map Bank.balance)
        ((solverTrace (greedyBanks.length : Int) greedyBanks).map Match.transfer) :=
  zero_sum_empties_both_queues greedyBanks (by decide) (by decide)

/-- Counterexample to C6: on `greedyBanks` (one common mode, balances
`0, 5, 3, 3, -6, -5` summing to zero) `optimizedSolver` returns 4, while the
three transfers of `threeTransfers` bring all balances to zero. -/
theorem greedy_count_not_minimal :
    (∀ b ∈ greedyBanks, (0 : Fin 16) ∈ b.optimizedModes) ∧
    totalBalance greedyBanks = 0 ∧
    optimizedSolver 6 greedyBanks = .ok 4 ∧
    Clears (greedyBanks.map Bank.balance) threeTransfers ∧
    threeTransfers.length = 3 := by decide

/-- Claim C6 as amended: when every bank shares a common mode, the balances sum to
zero and are above `-2^63`, and the length of the list is an `int`, no
iteration is penalised and the count returned by `optimizedSolver` is the
number of its own greedy matches, one transfer (payer, payee, positive
amount) per iteration from the popped debtor to the popped creditor of
`min(cred.first, -debt.first)`; these transfers bring all balances to zero.
The count is therefore the size of a clearing set, hence at least the
minimum number of such transfers (equality is not claimed). -/
theorem count_is_size_of_clearing_set (banks : List Bank)
    (hmode : ∃ mode, ∀ b ∈ banks, mode ∈ b.optimizedModes)
    (hsum : totalBalance banks = 0) (hrange : AboveMin banks)
    (hint : isInt (banks.length : Int)) :
    Clears (banks.map Bank.balance)
      ((solverTrace (banks.length : Int) banks).map Match.transfer) ∧
    optimizedSolver (banks.length : Int) banks
      = .ok (((solverTrace (banks.length : Int) banks).map Match.transfer).length : Int) ∧
    (∀ m ∈ solverTrace (banks.length : Int) banks,
      m.penalty = false ∧ m.amount = min m.cred.1 (-m.debt.1) ∧
      m.transfer = ⟨m.debt.2, m.cred.2, m.amount⟩) := by
  obtain ⟨sf, _, _, _, hclr⟩ := solver_clears banks hsum hrange
  have hr : AboveMin (banks.take banks.length) := by rw [List.take_length]; exact hrange
  obtain ⟨_, _, _, _, hex, _⟩ := solver_exact banks banks.length (le_refl _) hr
  obtain ⟨hpen, hres, _⟩ :=
    solver_unpenalised banks hint (pairsCompatible_of_common_mode hmode)
  refine ⟨hclr, ?_, fun m hm => ⟨hpen m hm, (hex m hm).2.2.2.2, rfl⟩⟩
  rw [hres, List.length_map]

/-- Witness of C6 (amended): the six banks of `greedyBanks`, all on mode 0. -/
theorem count_is_size_of_clearing_set_witness :
    (Clears (greedyBanks.map Bank.balance)
      ((solverTrace (greedyBanks.length : Int) greedyBanks).map Match.transfer) ∧
    optimizedSolver (greedyBanks.length : Int) greedyBanks
      = .ok (((solverTrace (greedyBanks.length : Int) greedyBanks).map
          Match.transfer).length : Int) ∧
    (∀ m ∈ solverTrace (greedyBanks.length : Int) greedyBanks,
      m.penalty = false ∧ m.amount = min m.cred.1 (-m.debt.1) ∧
      m.transfer = ⟨m.debt.2, m.cred.2, m.amount⟩)) ∧
    (solverTrace (greedyBanks.length : Int) greedyBanks).map Match.transfer
      = [⟨4, 1, 5⟩, ⟨5, 3, 3⟩, ⟨5, 2, 2⟩, ⟨4, 2, 1⟩] :=
  ⟨count_is_size_of_clearing_set greedyBanks ⟨0, by decide⟩ (by decide) (by decide)
    (by decide), by decide⟩

/-- Claim C7: for every list of banks (`numBanks` its length, an `int`) with at
least one bank of nonzero balance in which every pair of a creditor and a
debtor includes index 0 or has intersecting mode sets, the penalty is never
charged, the result is the number of loop iterations, and it is at most
`N - 1`, `N` the number of banks of nonzero balance. -/
theorem compatible_pairs_cost_one_each (banks : List Bank)
    (hint : isInt (banks.length : Int)) (hN : 1 ≤ nonzeroCount banks)
    (hpairs : PairsCompatible banks) :
    (∀ m ∈ solverTrace (banks.length : Int) banks, m.penalty = false) ∧
    optimizedSolver (banks.length : Int) banks
      = .ok ((solverTrace (banks.length : Int) banks).length : Int) ∧
    ((solverTrace (banks.length : Int) banks).length : Int)
      ≤ (nonzeroCount banks : Int) - 1 := by
  obtain ⟨h1, h2, h3⟩ := solver_unpenalised banks hint hpairs
  exact ⟨h1, h2, by omega⟩

/-- Witness of C7: the three banks of the test `DirectTransaction`. -/
theorem compatible_pairs_cost_one_each_witness :
    (∀ m ∈ solverTrace ((hubPair 100 {0} {0}).length : Int) (hubPair 100 {0} {0}),
      m.penalty = false) ∧
    optimizedSolver ((hubPair 100 {0} {0}).length : Int) (hubPair 100 {0} {0})
      = .ok ((solverTrace ((hubPair 100 {0} {0}).length : Int)
          (hubPair 100 {0} {0})).length : Int) ∧
    ((solverTrace ((hubPair 100 {0} {0}).length : Int) (hubPair 100 {0} {0})).length : Int)
      ≤ (nonzeroCount (hubPair 100 {0} {0}) : Int) - 1 :=
  compatible_pairs_cost_one_each (hubPair 100 {0} {0}) (by decide) (by decide) (by decide)

/-- Counterexample to C8: called with `numBanks = 2` on the three banks of
`DirectTransaction`, `optimizedSolver` does not fail: it returns the count 0. -/
theorem short_count_returns_a_count :
    (2 : Int) ≠ ((hubPair 100 {0} {0}).length : Int) ∧
    optimizedSolver 2 (hubPair 100 {0} {0}) = .ok 0 := by decide

/-- Claim C8 as amended: `optimizedSolver` makes no check of `numBanks` against the
length of `banks`; whenever `numBanks` is at most the length (equal, smaller
or negative) it returns a transaction count. -/
theorem count_returned_up_to_length (numBanks : Int) (banks : List Bank)
    (h : numBanks ≤ (banks.length : Int)) :
    ∃ r, optimizedSolver numBanks banks = .ok r := by
  rw [optimizedSolver_toNat]
  exact ⟨_, solver_result banks numBanks.toNat (by omega)⟩

/-- Witness of C8 (amended): `numBanks = 2` on a list of three banks. -/
theorem count_returned_up_to_length_witness :
    ∃ r, optimizedSolver 2 (hubPair 100 {0} {0}) = .ok r :=
  count_returned_up_to_length 2 (hubPair 100 {0} {0}) (by decide)

/-- Counterexample to C9: on `overflowBanks` the only iteration pops the
debtor balance `-2^63`, whose magnitude is not a `long`; the amount computed
is `-2^63` and the call returns the count 1. -/
theorem min_long_returns_a_count :
    solverTrace 3 overflowBanks
      = [⟨(1, 2), (-9223372036854775808, 1), -9223372036854775808, false⟩] ∧
    ¬ isLong |(-9223372036854775808 : Int)| ∧
    optimizedSolver 3 overflowBanks = .ok 1 := by decide

/-- Claim C9 as amended: `optimizedSolver` has no overflow failure. When the
balances of the first `n` banks are all above `-2^63`, no balance computation
of any iteration leaves the signed 64-bit range, and the call returns a count. -/
theorem no_balance_overflow_above_min (banks : List Bank) (n : Nat) (hn : n ≤ banks.length)
    (hrange : AboveMin (banks.take n)) :
    (∀ m ∈ solverTrace (n : Int) banks, m.noOverflow) ∧
    ∃ r, optimizedSolver (n : Int) banks = .ok r := by
  obtain ⟨sf, hfin, _, _, hex, _⟩ := solver_exact banks n hn hrange
  exact ⟨fun m hm => noOverflow_of_exact (hex m hm), _, finalState_result hfin⟩

/-- Witness of C9 (amended): the six banks of `greedyBanks`. -/
theorem no_balance_overflow_above_min_witness :
    (∀ m ∈ solverTrace (6 : Nat) greedyBanks, m.noOverflow) ∧
    ∃ r, optimizedSolver (6 : Nat) greedyBanks = .ok r :=
  no_balance_overflow_above_min greedyBanks 6 (by decide) (by decide)

/-- Claim C10: for every string hash and every string `s`, `getBankShard(s)` is an
integer in `[0, 4)`, namely the hash (a `size_t`) modulo 4; it is a total
function, and equal strings give equal shards. -/
theorem shard_in_range (hash : String → Nat) (s : String) :
    0 ≤ getBankShard hash s ∧ getBankShard hash s < 4 ∧
    getBankShard hash s = (((hash s % 2 ^ 64) % 4 : Nat) : Int) ∧
    getBankShard hash s = ((hash s % 4 : Nat) : Int) ∧
    ∀ t : String, s = t → getBankShard hash s = getBankShard hash t := by
  have h1 : getBankShard hash s = (((hash s % 2 ^ 64) % 4 : Nat) : Int) := by
    unfold getBankShard
    apply wrapInt_of_isInt
    unfold isInt
    omega
  refine ⟨by rw [h1]; omega, by rw [h1]; omega, h1, by rw [h1]; omega, ?_⟩
  intro t ht
  rw [ht]

/-- Witness of C10: the name of the test `ShardingIsDeterministic`, with the
length of the string as hash. -/
theorem shard_in_range_witness :
    0 ≤ getBankShard String.length "HDFC_Mumbai_Branch" ∧
    getBankShard String.length "HDFC_Mumbai_Branch" < 4 ∧
    getBankShard String.length "HDFC_Mumbai_Branch"
      = getBankShard String.length "HDFC_Mumbai_Branch" :=
  ⟨(shard_in_range String.length "HDFC_Mumbai_Branch").1,
   (shard_in_range String.length "HDFC_Mumbai_Branch").2.1,
   (shard_in_range String.length "HDFC_Mumbai_Branch").2.2.2.2 _ rfl⟩

theorem pairLt_asymm {a b : Entry} (h : pairLt a b = true) : pairLt b a = false := by
  unfold pairLt at *
  simp only [Bool.or_eq_true, Bool.and_eq_true, decide_eq_true_eq, Bool.not_eq_true',
    decide_eq_false_iff_not] at h
  simp only [Bool.or_eq_false_iff, Bool.and_eq_false_imp, decide_eq_false_iff_not,
    Bool.not_eq_true', decide_eq_true_eq]
  omega

theorem pairLt_trans {a b c : Entry} (h1 : pairLt a b = true) (h2 : pairLt b c = true) :
    pairLt a c = true := by
  unfold pairLt at *
  simp only [Bool.or_eq_true, Bool.and_eq_true, decide_eq_true_eq, Bool.not_eq_true',
    decide_eq_false_iff_not] at h1 h2 ⊢
  omega

/-- Pushing keeps a queue in pop order, for a priority that is asymmetric and transitive. -/
theorem pqPush_popOrdered (before : Entry → Entry → Bool)
    (hasymm : ∀ a b, before a b = true → before b a = false)
    (htrans : ∀ a b c, before a b = true → before b c = true → before a c = true)
    (x : Entry) (l : List Entry) (h : PopOrdered before l) :
    PopOrdered before (pqPush before x l) := by
  induction l with
  | nil => simp [pqPush, PopOrdered]
  | cons y ys ih =>
    unfold PopOrdered at h ih ⊢
    rw [List.pairwise_cons] at h
    unfold pqPush
    by_cases hxy : before x y = true
    · rw [if_pos hxy, List.pairwise_cons]
      refine ⟨?_, List.pairwise_cons.mpr h⟩
      intro z hz
      rcases List.mem_cons.mp hz with rfl | hz
      · exact hasymm _ _ hxy
      · by_contra hzx
        have hzx2 : before z x = true := by simpa using hzx
        have := htrans _ _ _ hzx2 hxy
        rw [h.1 z hz] at this
        cases this
    · rw [if_neg hxy, List.pairwise_cons]
      refine ⟨?_, ih h.2⟩
      intro z hz
      rcases mem_pqPush.mp hz with rfl | hz
      · simpa using hxy
      · exact h.1 z hz

theorem credPush_popOrdered (x : Entry) (l : List Entry) (h : PopOrdered credBefore l) :
    PopOrdered credBefore (pqPush credBefore x l) :=
  pqPush_popOrdered credBefore (fun _ _ hab => pairLt_asymm hab)
    (fun _ _ _ hab hbc => pairLt_trans hbc hab) x l h

theorem debtPush_popOrdered (x : Entry) (l : List Entry) (h : PopOrdered debtBefore l) :
    PopOrdered debtBefore (pqPush debtBefore x l) :=
  pqPush_popOrdered debtBefore (fun _ _ hab => pairLt_asymm hab)
    (fun _ _ _ hab hbc => pairLt_trans hab hbc) x l h

/-- The head of a creditor queue in pop order is its greatest pair: `top()`. -/
theorem cred_head_is_top {x : Entry} {l : List Entry} (h : PopOrdered credBefore (x :: l)) :
    ∀ y ∈ l, pairLt x y = false :=
  (List.pairwise_cons.mp h).1

/-- The head of a debtor queue in pop order is its least pair: `top()`. -/
theorem debt_head_is_top {x : Entry} {l : List Entry} (h : PopOrdered debtBefore (x :: l)) :
    ∀ y ∈ l, pairLt y x = false :=
  (List.pairwise_cons.mp h).1

/-- The `for` loop keeps both queues in pop order. -/
theorem fillFrom_popOrdered (banks : List Bank) :
    ∀ (k i : Nat) (q q1 : Queues), PopOrdered credBefore q.creditors →
      PopOrdered debtBefore q.debtors → fillFrom banks i k q = .ok q1 →
      PopOrdered credBefore q1.creditors ∧ PopOrdered debtBefore q1.debtors := by
  intro k
  induction k with
  | zero =>
    intro i q q1 hc hd h
    injection h with h
    subst h
    exact ⟨hc, hd⟩
  | succ k ih =>
    intro i q q1 hc hd h
    unfold fillFrom at h
    unfold fillStep at h
    split at h
    · cases h
    · split at h
      · exact ih (i + 1) ⟨pqPush credBefore _ q.creditors, q.debtors⟩ q1
          (credPush_popOrdered _ _ hc) hd h
      · split at h
        · exact ih (i + 1) ⟨q.creditors, pqPush debtBefore _ q.debtors⟩ q1 hc
            (debtPush_popOrdered _ _ hd) h
        · exact ih (i + 1) q q1 hc hd h

/-- The loop body keeps both queues in pop order. -/
theorem loopBody_popOrdered {banks : List Bank} {cred debt : Entry} {cs ds : List Entry}
    {tx : Int} {s1 : LoopState} (hc : PopOrdered credBefore (cred :: cs))
    (hd : PopOrdered debtBefore (debt :: ds))
    (h : loopBody banks cred debt cs ds tx = .ok s1) :
    PopOrdered credBefore s1.creditors ∧ PopOrdered debtBefore s1.debtors := by
  have hcs : PopOrdered credBefore cs := (List.pairwise_cons.mp hc).2
  have hds : PopOrdered debtBefore ds := (List.pairwise_cons.mp hd).2
  unfold loopBody at h
  split at h
  · injection h with h
    subst h
    constructor
    · simp only
      split
      · exact credPush_popOrdered _ _ hcs
      · exact hcs
    · simp only
      split
      · exact debtPush_popOrdered _ _ hds
      · exact hds
  · cases h

/-- The step budget of the `while` loop is never exhausted. -/
theorem solver_never_out_of_fuel (numBanks : Int) (banks : List Bank) :
    optimizedSolver numBanks banks ≠ .outOfFuel := by
  by_cases h : numBanks ≤ (banks.length : Int)
  · rw [optimizedSolver_toNat, solver_result banks numBanks.toNat (by omega)]
    intro hc
    cases hc
  · rw [solver_past_end numBanks banks (by omega)]
    intro hc
    cases hc

/-- Run of `noHubPair`: the debtor sits at index 0, so the pair is exempt from the penalty. -/
theorem noHubPair_run (x : Int) (mA mB : ModeSet) (hx : 0 < x) (hlong : isLong x) :
    optimizedSolver 2 (noHubPair x mA mB) = .ok 1 := by
  have hneg : -x < 0 := by omega
  have hnpos : ¬ (0 < -x) := by omega
  have habs : absLong (-x) = x := by
    unfold absLong
    rw [abs_neg, abs_of_pos hx]
    exact wrapLong_of_isLong hlong
  have h0 : wrapLong 0 = 0 := by decide
  have h1 : wrapInt 1 = 1 := by decide
  simp [optimizedSolver, finalState, fillQueues, fillFrom, fillStep, noHubPair, mkBank,
    Outcome.bind, pqPush, whileLoop, loopBody, matchAmount, penalised, hx, hneg, hnpos, habs,
    h0, h1]

/-- Run of `noHubPair` behind any bank of balance 0 at index 0. -/
theorem frontedPair_run (h : Bank) (hb : h.balance = 0) (x : Int) (mA mB : ModeSet)
    (hx : 0 < x) (hlong : isLong x) (hdisj : mA ∩ mB = ∅) :
    optimizedSolver 3 (h :: noHubPair x mA mB) = .ok 2 := by
  have hneg : -x < 0 := by omega
  have hnpos : ¬ (0 < -x) := by omega
  have habs : absLong (-x) = x := by
    unfold absLong
    rw [abs_neg, abs_of_pos hx]
    exact wrapLong_of_isLong hlong
  have h0 : wrapLong 0 = 0 := by decide
  have h1 : wrapInt 1 = 1 := by decide
  have h2 : wrapInt 2 = 2 := by decide
  have h3 : wrapInt (1 + 1) = 2 := by decide
  have hs2 : mB ∩ mA = ∅ := by rw [Finset.inter_comm]; exact hdisj
  simp [optimizedSolver, finalState, fillQueues, fillFrom, fillStep, noHubPair, mkBank,
    Outcome.bind, pqPush, whileLoop, loopBody, matchAmount, penalised, hx, hneg, hnpos, habs,
    h0, h1, h2, h3, hs2, hb]

/-- Counterexample to C11: with no hub in the list, `A(-100, {0})` at index 0
and `B(100, {2})`, the modes are disjoint and `optimizedSolver` returns 1, not 2. -/
theorem no_hub_pair_is_not_penalised :
    ({0} : ModeSet) ∩ {2} = ∅ ∧ optimizedSolver 2 (noHubPair 100 {0} {2}) = .ok 1 := by
  decide

/-- Claim C11 as amended: the bank at index 0 is the hub by position, whatever
it is. For every `x > 0` (a `long`) and disjoint mode sets `mA`, `mB`,
`optimizedSolver(2, [A(-x, mA), B(x, mB)])` returns 1, because `A` sits at
index 0; the penalty rule applies to the pair once neither bank is at index
0: behind any bank of balance 0 the same pair returns 2. -/
theorem no_hub_pair_returns_one (x : Int) (mA mB : ModeSet) (hx : 0 < x) (hlong : isLong x)
    (hdisj : mA ∩ mB = ∅) :
    optimizedSolver 2 (noHubPair x mA mB) = .ok 1 ∧
    ∀ h : Bank, h.balance = 0 → optimizedSolver 3 (h :: noHubPair x mA mB) = .ok 2 :=
  ⟨noHubPair_run x mA mB hx hlong, fun h hb => frontedPair_run h hb x mA mB hx hlong hdisj⟩

/-- Witness of C11 (amended): `x = 100`, modes 0 and 2. -/
theorem no_hub_pair_returns_one_witness :
    optimizedSolver 2 (noHubPair 100 {0} {2}) = .ok 1 ∧
    ∀ h : Bank, h.balance = 0 → optimizedSolver 3 (h :: noHubPair 100 {0} {2}) = .ok 2 :=
  no_hub_pair_returns_one 100 {0} {2} (by decide) (by decide) (by decide)

/-- Claim C15: selection among equal balances changes which penalty is
charged and the count returned: `tieBanks` and `tieBanksSwapped` have the hub
at index 0 and differ only in the order of `B1` and `B2`, and
`optimizedSolver` returns 4 on the first and 2 on the second. -/
theorem tie_order_changes_count :
    tieBanks.Perm tieBanksSwapped ∧
    tieBanks.head? = tieBanksSwapped.head? ∧
    tieBanks.take 3 = tieBanksSwapped.take 3 ∧
    optimizedSolver 5 tieBanks = .ok 4 ∧
    optimizedSolver 5 tieBanksSwapped = .ok 2 := by
  refine ⟨?_, by decide, by decide, by decide, by decide⟩
  unfold tieBanks tieBanksSwapped
  exact ((List.Perm.swap _ _ _).cons _).cons _ |>.cons _

theorem whileLoop_zero (banks : List Bank) (cred debt : Entry) (cs ds : List Entry) (tx : Int) :
    whileLoop banks 0 ⟨cred :: cs, debt :: ds, tx⟩ = .outOfFuel := by
  simp [whileLoop]

theorem loopTrace_zero (banks : List Bank) (s : LoopState) : loopTrace banks 0 s = [] := by
  rw [loopTrace]
  split
  · rfl
  · rfl

theorem loopTrace_fault (banks : List Bank) (fuel : Nat) (cred debt : Entry)
    (cs ds : List Entry) (tx : Int)
    (h : ∀ s1, loopBody banks cred debt cs ds tx ≠ .ok s1) :
    loopTrace banks (fuel + 1) ⟨cred :: cs, debt :: ds, tx⟩ = [] := by
  rw [loopTrace]
  cases hres : loopBody banks cred debt cs ds tx with
  | ok s1 => exact absurd hres (h s1)
  | outOfBounds => simp only [hres]
  | outOfFuel => simp only [hres]

/-- The entries of the state after an iteration carry indices of the state before it. -/
theorem loopBody_indices {banks : List Bank} {cred debt : Entry} {cs ds : List Entry}
    {tx : Int} {s1 : LoopState} (h : loopBody banks cred debt cs ds tx = .ok s1) :
    (∀ e ∈ s1.creditors, e.2 = cred.2 ∨ e ∈ cs) ∧ (∀ e ∈ s1.debtors, e.2 = debt.2 ∨ e ∈ ds) := by
  unfold loopBody at h
  split at h
  · injection h with h
    subst h
    constructor
    · intro e he
      simp only at he
      split at he
      · rcases mem_pqPush.mp he with rfl | he
        · exact Or.inl rfl
        · exact Or.inr he
      · exact Or.inr he
    · intro e he
      simp only at he
      split at he
      · rcases mem_pqPush.mp he with rfl | he
        · exact Or.inl rfl
        · exact Or.inr he
      · exact Or.inr he
  · cases h

/-- Two vectors on which the loop body agrees for all indices in `P` give the
same run of the `while` loop from any state whose indices are in `P`. -/
theorem whileLoop_congr (banks banks' : List Bank) (P : Nat → Prop)
    (hbody : ∀ cred debt cs ds tx, P cred.2 → P debt.2 →
      loopBody banks cred debt cs ds tx = loopBody banks' cred debt cs ds tx) :
    ∀ (fuel : Nat) (s : LoopState), (∀ e ∈ s.creditors, P e.2) → (∀ e ∈ s.debtors, P e.2) →
      whileLoop banks fuel s = whileLoop banks' fuel s ∧
      loopTrace banks fuel s = loopTrace banks' fuel s := by
  intro fuel
  induction fuel with
  | zero =>
    intro s _ _
    obtain ⟨cs, ds, tx⟩ := s
    refine ⟨?_, by rw [loopTrace_zero, loopTrace_zero]⟩
    cases cs with
    | nil => rw [whileLoop_stop_left, whileLoop_stop_left]
    | cons cred cs =>
      cases ds with
      | nil => rw [whileLoop_stop_right, whileLoop_stop_right]
      | cons debt ds => rw [whileLoop_zero, whileLoop_zero]
  | succ fuel ih =>
    intro s hc hd
    obtain ⟨cs, ds, tx⟩ := s
    cases cs with
    | nil =>
      exact ⟨by rw [whileLoop_stop_left, whileLoop_stop_left],
        by rw [loopTrace_stop_left, loopTrace_stop_left]⟩
    | cons cred cs =>
      cases ds with
      | nil =>
        exact ⟨by rw [whileLoop_stop_right, whileLoop_stop_right],
          by rw [loopTrace_stop_right, loopTrace_stop_right]⟩
      | cons debt ds =>
        have hPc : P cred.2 := hc cred (List.mem_cons_self _ _)
        have hPd : P debt.2 := hd debt (List.mem_cons_self _ _)
        have hb := hbody cred debt cs ds tx hPc hPd
        have hpen : penaltyAt banks cred debt = penaltyAt banks' cred debt := by
          have h1 := hbody cred debt [] [] 0 hPc hPd
          unfold loopBody at h1
          unfold penaltyAt
          cases hl : banks[cred.2]? <;> cases hl2 : banks[debt.2]? <;>
            cases hr : banks'[cred.2]? <;> cases hr2 : banks'[debt.2]? <;>
            simp only [hl, hl2, hr, hr2] at h1 ⊢ <;> try cases h1
          rename_i bc bd bc' bd'
          injection h1 with h1
          injection h1 with _ _ h1
          by_cases hp : penalised cred debt bc bd = true <;>
            by_cases hp' : penalised cred debt bc' bd' = true <;>
            simp only [hp, hp', if_true, if_false, Bool.false_eq_true] at h1 ⊢ <;>
            first | rfl | (revert h1; decide)
        rw [whileLoop_succ, whileLoop_succ, hb]
        cases hres : loopBody banks' cred debt cs ds tx with
        | ok s1 =>
          have hidx := loopBody_indices hres
          have hI := ih s1
            (fun e he => by
              rcases hidx.1 e he with h | h
              · rw [h]; exact hPc
              · exact hc e (List.mem_cons_of_mem _ h))
            (fun e he => by
              rcases hidx.2 e he with h | h
              · rw [h]; exact hPd
              · exact hd e (List.mem_cons_of_mem _ h))
          refine ⟨hI.1, ?_⟩
          rw [loopTrace_succ _ _ _ _ _ _ _ _ (hb.trans hres), loopTrace_succ _ _ _ _ _ _ _ _ hres,
            hI.2, hpen]
        | outOfBounds =>
          refine ⟨rfl, ?_⟩
          rw [loopTrace_fault _ _ _ _ _ _ _ (by rw [hb, hres]; intro s1 h; cases h),
            loopTrace_fault _ _ _ _ _ _ _ (by rw [hres]; intro s1 h; cases h)]
        | outOfFuel =>
          refine ⟨rfl, ?_⟩
          rw [loopTrace_fault _ _ _ _ _ _ _ (by rw [hb, hres]; intro s1 h; cases h),
            loopTrace_fault _ _ _ _ _ _ _ (by rw [hres]; intro s1 h; cases h)]

theorem fillFrom_congr (banks banks' : List Bank) (n : Nat)
    (hstep : ∀ q i, i < n → fillStep banks q i = fillStep banks' q i) :
    ∀ (k i : Nat) (q : Queues), i + k ≤ n → fillFrom banks i k q = fillFrom banks' i k q := by
  intro k
  induction k with
  | zero => intro i q _; rfl
  | succ k ih =>
    intro i q h
    unfold fillFrom
    rw [hstep q i (by omega)]
    cases fillStep banks' q i with
    | ok q1 => exact ih (i + 1) q1 (by omega)
    | outOfBounds => rfl
    | outOfFuel => rfl

theorem fillStep_setHubModes (m : ModeSet) (banks : List Bank) (q : Queues) (i : Nat) :
    fillStep (setHubModes m banks) q i = fillStep banks q i := by
  cases banks with
  | nil => rfl
  | cons b bs =>
    cases i with
    | zero => simp [fillStep, setHubModes]
    | succ i => simp [fillStep, setHubModes]

theorem loopBody_setHubModes (m : ModeSet) (banks : List Bank) (cred debt : Entry)
    (cs ds : List Entry) (tx : Int) :
    loopBody (setHubModes m banks) cred debt cs ds tx = loopBody banks cred debt cs ds tx := by
  cases banks with
  | nil => rfl
  | cons b bs =>
    obtain ⟨c, ci⟩ := cred
    obtain ⟨d, di⟩ := debt
    cases ci with
    | zero =>
      cases di with
      | zero => simp [loopBody, setHubModes, penalised]
      | succ dj =>
        cases hd : bs[dj]? with
        | none => simp [loopBody, setHubModes, hd]
        | some bd => simp [loopBody, setHubModes, penalised, hd]
    | succ cj =>
      cases di with
      | zero =>
        cases hc : bs[cj]? with
        | none => simp [loopBody, setHubModes, hc]
        | some bc => simp [loopBody, setHubModes, penalised, hc]
      | succ dj => simp [loopBody, setHubModes]

/-- Claim C16: the result of `optimizedSolver` does not depend on the mode set
of the bank at index 0: for every `numBanks`, every vector and every mode set
`m`, replacing `banks[0].optimizedModes` by `m` leaves the outcome unchanged. -/
theorem hub_modes_are_irrelevant (numBanks : Int) (banks : List Bank) (m : ModeSet) :
    optimizedSolver numBanks (setHubModes m banks) = optimizedSolver numBanks banks := by
  have hfill : fillQueues numBanks (setHubModes m banks) = fillQueues numBanks banks :=
    fillFrom_congr _ _ numBanks.toNat (fun q i _ => fillStep_setHubModes m banks q i)
      numBanks.toNat 0 _ (by omega)
  have hloop : ∀ fuel s, whileLoop (setHubModes m banks) fuel s = whileLoop banks fuel s :=
    fun fuel s => (whileLoop_congr _ _ (fun _ => True)
      (fun cred debt cs ds tx _ _ => loopBody_setHubModes m banks cred debt cs ds tx)
      fuel s (fun _ _ => trivial) (fun _ _ => trivial)).1
  unfold optimizedSolver finalState
  rw [hfill]
  cases fillQueues numBanks banks with
  | ok q => simp only [Outcome.bind, hloop]
  | outOfBounds => rfl
  | outOfFuel => rfl

theorem fillStep_take (banks : List Bank) (n : Nat) (q : Queues) (i : Nat) (h : i < n) :
    fillStep banks q i = fillStep (banks.take n) q i := by
  unfold fillStep
  rw [List.getElem?_take_of_lt h]

theorem loopBody_take (banks : List Bank) (n : Nat) (cred debt : Entry)
    (cs ds : List Entry) (tx : Int) (hc : cred.2 < n) (hd : debt.2 < n) :
    loopBody banks cred debt cs ds tx = loopBody (banks.take n) cred debt cs ds tx := by
  unfold loopBody
  rw [List.getElem?_take_of_lt hc, List.getElem?_take_of_lt hd]

/-- The solver on the first `n` banks of a vector runs as on the vector cut to them. -/
theorem solver_take (banks : List Bank) (n : Nat) (hn : n ≤ banks.length) :
    optimizedSolver (n : Int) banks = optimizedSolver (n : Int) (banks.take n) ∧
    solverTrace (n : Int) banks = solverTrace (n : Int) (banks.take n) := by
  have hfill : fillQueues (n : Int) banks = fillQueues (n : Int) (banks.take n) :=
    fillFrom_congr _ _ n (fun q i hi => fillStep_take banks n q i hi) _ 0 _
      (by simp)
  obtain ⟨q, hq, hc, hd⟩ := fillQueues_spec banks n hn
  have hidx : ∀ {keep : Int → Bool} {e : Entry},
      e ∈ entriesFrom keep 0 (banks.take n) → e.2 < n := by
    intro keep e he
    obtain ⟨j, b, hj, _, rfl⟩ := mem_entriesFrom he
    have := lt_length_of_lookup hj
    rw [List.length_take] at this
    simp only [Nat.zero_add]
    omega
  have hloop := whileLoop_congr banks (banks.take n) (fun i => i < n)
    (fun cred debt cs ds tx h1 h2 => loopBody_take banks n cred debt cs ds tx h1 h2)
    (q.creditors.length + q.debtors.length) ⟨q.creditors, q.debtors, 0⟩
    (fun e he => hidx (hc.mem_iff.mp he)) (fun e he => hidx (hd.mem_iff.mp he))
  constructor
  · unfold optimizedSolver finalState
    rw [← hfill, hq]
    simp only [Outcome.bind, hloop.1]
  · unfold solverTrace
    rw [← hfill, hq]
    exact hloop.2

theorem solver_nonpos (z : Int) (banks : List Bank) (hz : z ≤ 0) :
    optimizedSolver z banks = .ok 0 := by
  have h0 : z.toNat = 0 := by omega
  simp [optimizedSolver, finalState, fillQueues, h0, fillFrom, whileLoop, Outcome.bind]

/-- Claim C20: when the declared count `n` is at most the length of the
vector, the banks past the first `n` are ignored: the call returns a count,
every index popped is below `n`, and `optimizedSolver(n, banks)` equals
`optimizedSolver(n, first n elements of banks)`; for every `numBanks <= 0`
the result is 0. -/
theorem extra_banks_are_ignored (banks : List Bank) (n : Nat) (hn : n ≤ banks.length) :
    optimizedSolver (n : Int) banks = optimizedSolver (n : Int) (banks.take n) ∧
    (∃ r, optimizedSolver (n : Int) banks = .ok r) ∧
    (∀ m ∈ solverTrace (n : Int) banks, m.cred.2 < n ∧ m.debt.2 < n) ∧
    (∀ z : Int, z ≤ 0 → optimizedSolver z banks = .ok 0) := by
  obtain ⟨h1, h2⟩ := solver_take banks n hn
  refine ⟨h1, ⟨_, solver_result banks n hn⟩, ?_, fun z hz => solver_nonpos z banks hz⟩
  intro m hm
  rw [h2] at hm
  have hlen : (banks.take n).length = n := by rw [List.length_take]; omega
  obtain ⟨_, hd, hc⟩ := solverTrace_transfers (banks.take n) n (by omega) m hm
  rw [hlen] at hd hc
  exact ⟨hc, hd⟩

/-- Witness of C20: `numBanks = 2` on the five banks of `tieBanks`. -/
theorem extra_banks_are_ignored_witness :
    optimizedSolver (2 : Nat) tieBanks = optimizedSolver (2 : Nat) (tieBanks.take 2) ∧
    (∃ r, optimizedSolver (2 : Nat) tieBanks = .ok r) ∧
    (∀ m ∈ solverTrace (2 : Nat) tieBanks, m.cred.2 < 2 ∧ m.debt.2 < 2) ∧
    (∀ z : Int, z ≤ 0 → optimizedSolver z tieBanks = .ok 0) :=
  extra_banks_are_ignored tieBanks 2 (by decide)

theorem loopBody_oob {banks : List Bank} {cred debt : Entry}
    (h : ¬ (cred.2 < banks.length ∧ debt.2 < banks.length)) (cs ds : List Entry) (tx : Int) :
    loopBody banks cred debt cs ds tx = .outOfBounds := by
  unfold loopBody
  cases hc : banks[cred.2]? with
  | none => rfl
  | some bc =>
    cases hd : banks[debt.2]? with
    | none => rfl
    | some bd => exact absurd ⟨lt_length_of_lookup hc, lt_length_of_lookup hd⟩ h

/-- The matched steps depend on the vector only through its length. -/
theorem loopTrace_steps_congr (banks banks' : List Bank) (hlen : banks.length = banks'.length) :
    ∀ (fuel : Nat) (cs ds : List Entry) (tx tx' : Int),
      (loopTrace banks fuel ⟨cs, ds, tx⟩).map Match.step
        = (loopTrace banks' fuel ⟨cs, ds, tx'⟩).map Match.step := by
  intro fuel
  induction fuel with
  | zero => intro cs ds tx tx'; rw [loopTrace_zero, loopTrace_zero]
  | succ fuel ih =>
    intro cs ds tx tx'
    cases cs with
    | nil => rw [loopTrace_stop_left, loopTrace_stop_left]
    | cons cred cs =>
      cases ds with
      | nil => rw [loopTrace_stop_right, loopTrace_stop_right]
      | cons debt ds =>
        by_cases hb : cred.2 < banks.length ∧ debt.2 < banks.length
        · obtain ⟨bc, hbc⟩ := lookup_of_lt hb.1
          obtain ⟨bd, hbd⟩ := lookup_of_lt hb.2
          obtain ⟨bc', hbc'⟩ := lookup_of_lt (hlen ▸ hb.1)
          obtain ⟨bd', hbd'⟩ := lookup_of_lt (hlen ▸ hb.2)
          rw [loopTrace_succ _ _ _ _ _ _ _ _ (loopBody_ok hbc hbd cs ds tx),
            loopTrace_succ _ _ _ _ _ _ _ _ (loopBody_ok hbc' hbd' cs ds tx'),
            List.map_cons, List.map_cons, ih]
          rfl
        · have hb' : ¬ (cred.2 < banks'.length ∧ debt.2 < banks'.length) := hlen ▸ hb
          rw [loopTrace_fault _ _ _ _ _ _ _
              (by rw [loopBody_oob hb]; intro s1 h; cases h),
            loopTrace_fault _ _ _ _ _ _ _
              (by rw [loopBody_oob hb']; intro s1 h; cases h)]

theorem fillStep_withAllModes (banks : List Bank) (q : Queues) (i : Nat) :
    fillStep (banks.map withAllModes) q i = fillStep banks q i := by
  unfold fillStep
  rw [List.getElem?_map]
  cases banks[i]? with
  | none => rfl
  | some b => rfl

/-- The sequence of matched steps is that of the input with every mode set
replaced by the full set. -/
theorem solverTrace_withAllModes (numBanks : Int) (banks : List Bank) :
    (solverTrace numBanks banks).map Match.step
      = (solverTrace numBanks (banks.map withAllModes)).map Match.step := by
  have hfill : fillQueues numBanks (banks.map withAllModes) = fillQueues numBanks banks :=
    fillFrom_congr _ _ numBanks.toNat (fun q i _ => fillStep_withAllModes banks q i)
      numBanks.toNat 0 _ (by omega)
  unfold solverTrace
  rw [hfill]
  cases fillQueues numBanks banks with
  | ok q => exact loopTrace_steps_congr _ _ (by simp) _ _ _ _ _
  | outOfBounds => rfl
  | outOfFuel => rfl

theorem traceCost_eq (ms : List Match) :
    traceCost ms = (ms.length : Int) + (ms.countP fun m => m.penalty : Nat) := by
  induction ms with
  | nil => simp [traceCost]
  | cons m ms ih =>
    rw [traceCost_cons, ih, List.countP_cons, List.length_cons]
    unfold matchCost
    cases m.penalty <;> simp <;> ring

/-- On the iterations of the solver the penalty flag is `disjointNonHub`. -/
theorem penalty_eq_disjointNonHub (banks : List Bank) (n : Nat) (hn : n ≤ banks.length) :
    ∀ m ∈ solverTrace (n : Int) banks, m.penalty = disjointNonHub banks m := by
  obtain ⟨q, sf, _, _, _, _, _, _, _, _, _, _, hall⟩ := solver_basic banks n hn
  intro m hm
  obtain ⟨bc, bd, hbc, hbd, _, _, hpen⟩ := hall m hm
  rw [hpen]
  unfold disjointNonHub penalised
  simp only [hbc, hbd]
  by_cases h1 : m.cred.2 = 0 <;> by_cases h2 : m.debt.2 = 0 <;>
    by_cases h3 : bc.optimizedModes ∩ bd.optimizedModes = ∅ <;>
    simp [h1, h2, h3, Finset.nonempty_iff_ne_empty]

theorem pairsCompatible_withAllModes (banks : List Bank) :
    PairsCompatible (banks.map withAllModes) := by
  apply pairsCompatible_of_common_mode
  refine ⟨0, fun b hb => ?_⟩
  obtain ⟨b0, _, rfl⟩ := List.mem_map.mp hb
  exact Finset.mem_univ _

theorem nonzeroCount_withAllModes (bs : List Bank) :
    nonzeroCount (bs.map withAllModes) = nonzeroCount bs := by
  unfold nonzeroCount
  rw [List.countP_map]
  rfl

/-- Counts on an input and on its all-modes version when the counter cannot overflow. -/
theorem mode_blind_counts (banks : List Bank) (n : Nat) (hn : n ≤ banks.length)
    (hN : nonzeroCount (banks.take n) ≤ 2 ^ 30) :
    optimizedSolver (n : Int) (banks.map withAllModes)
      = .ok ((solverTrace (n : Int) banks).length : Int) ∧
    optimizedSolver (n : Int) banks
      = .ok (((solverTrace (n : Int) banks).length : Int)
          + ((solverTrace (n : Int) banks).countP (disjointNonHub banks) : Nat)) ∧
    (solverTrace (n : Int) banks).countP (disjointNonHub banks)
      ≤ (solverTrace (n : Int) banks).length := by
  have hlen := (solverTrace_length banks n hn).1
  have hsteps := congrArg List.length (solverTrace_withAllModes (n : Int) banks)
  rw [List.length_map, List.length_map] at hsteps
  have hn' : n ≤ (banks.map withAllModes).length := by simpa using hn
  have hpen' := no_penalty_of_compatible (banks.map withAllModes) n hn'
    (pairsCompatible_withAllModes banks)
  have hcount : (solverTrace (n : Int) banks).countP (fun m => m.penalty)
      = (solverTrace (n : Int) banks).countP (disjointNonHub banks) :=
    List.countP_congr (fun m hm => by rw [penalty_eq_disjointNonHub banks n hn m hm])
  have hle : (solverTrace (n : Int) banks).countP (disjointNonHub banks)
      ≤ (solverTrace (n : Int) banks).length := List.countP_le_length _
  have h30 : (2 : Nat) ^ 30 = 1073741824 := by norm_num
  refine ⟨?_, ?_, hle⟩
  · rw [solver_result _ n hn', traceCost_unpenalised hpen', ← hsteps, wrapInt_of_isInt]
    unfold isInt
    omega
  · rw [solver_result banks n hn, traceCost_eq, hcount, wrapInt_of_isInt]
    unfold isInt
    omega

/-- Counterexample to C12: on `starBanks (2^30)` the result is `-2^31`, while
the result `k` on the same input with every mode set replaced by the full set
is not negative, so `k <= r` fails. -/
theorem star_count_below_mode_blind_count :
    optimizedSolver (2 ^ 30 + 2) (starBanks (2 ^ 30)) = .ok (-2147483648) ∧
    ∃ k, optimizedSolver (2 ^ 30 + 2) ((starBanks (2 ^ 30)).map withAllModes) = .ok k ∧
      ¬ (k ≤ -2147483648) := by
  have e1 : (((2 ^ 30 : Nat) : Int) + 2) = 2 ^ 30 + 2 := by norm_num
  constructor
  · have h := star_result (2 ^ 30) (by norm_num) (by norm_num)
    have e2 : wrapInt (2 * ((2 ^ 30 : Nat) : Int)) = -2147483648 := by
      unfold wrapInt
      norm_num
    rw [e1, e2] at h
    exact h
  · have hl : ((starBanks (2 ^ 30)).map withAllModes).length = 2 ^ 30 + 2 := by
      rw [List.length_map, starBanks_length]
    have hint : isInt ((((starBanks (2 ^ 30)).map withAllModes).length : Nat) : Int) := by
      rw [hl]
      unfold isInt
      norm_num
    have h := (solver_unpenalised _ hint (pairsCompatible_withAllModes _)).2.1
    rw [hl] at h
    have e3 : (((2 ^ 30 + 2 : Nat) : Int)) = 2 ^ 30 + 2 := by norm_num
    rw [e3] at h
    refine ⟨_, h, ?_⟩
    have : (0 : Int) ≤ ((solverTrace (2 ^ 30 + 2) ((starBanks (2 ^ 30)).map withAllModes)).length
        : Int) := Int.natCast_nonneg _
    omega

/-- Claim C12 as amended: the mode constraint does not alter the matching
order: for every input the sequence of matched (creditor index, debtor index,
amount) steps is the same as for the input with every mode set replaced by
the full set. When `numBanks` is at most the length of the vector and at most
`2^30` of the first `numBanks` banks have a nonzero balance, the result `k` on
the all-modes input and the result `r` on the input satisfy
`k <= r <= 2 * k`, and `r - k` is the number of matched pairs that exclude
index 0 and have disjoint mode sets. -/
theorem modes_do_not_alter_matching (banks : List Bank) (n : Nat) (hn : n ≤ banks.length)
    (hN : nonzeroCount (banks.take n) ≤ 2 ^ 30) :
    (∀ numBanks : Int, ∀ bs : List Bank, (solverTrace numBanks bs).map Match.step
      = (solverTrace numBanks (bs.map withAllModes)).map Match.step) ∧
    ∃ k r, optimizedSolver (n : Int) (banks.map withAllModes) = .ok k ∧
      optimizedSolver (n : Int) banks = .ok r ∧ k ≤ r ∧ r ≤ 2 * k ∧
      r - k = ((solverTrace (n : Int) banks).countP (disjointNonHub banks) : Nat) := by
  obtain ⟨hk, hr, hle⟩ := mode_blind_counts banks n hn hN
  refine ⟨fun z bs => solverTrace_withAllModes z bs, _, _, hk, hr, ?_, ?_, ?_⟩
  · omega
  · omega
  · omega

/-- Witness of C12 (amended): the five banks of `tieBanks`. -/
theorem modes_do_not_alter_matching_witness :
    (∀ numBanks : Int, ∀ bs : List Bank, (solverTrace numBanks bs).map Match.step
      = (solverTrace numBanks (bs.map withAllModes)).map Match.step) ∧
    ∃ k r, optimizedSolver (5 : Nat) (tieBanks.map withAllModes) = .ok k ∧
      optimizedSolver (5 : Nat) tieBanks = .ok r ∧ k ≤ r ∧ r ≤ 2 * k ∧
      r - k = ((solverTrace (5 : Nat) tieBanks).countP (disjointNonHub tieBanks) : Nat) :=
  modes_do_not_alter_matching tieBanks 5 (by decide) (by decide)

theorem loopStates_stop_left (banks : List Bank) (fuel : Nat) (ds : List Entry) (tx : Int) :
    loopStates banks fuel ⟨[], ds, tx⟩ = [⟨[], ds, tx⟩] := by
  cases fuel <;> simp [loopStates]

theorem loopStates_stop_right (banks : List Bank) (fuel : Nat) (cs : List Entry) (tx : Int) :
    loopStates banks fuel ⟨cs, [], tx⟩ = [⟨cs, [], tx⟩] := by
  cases fuel <;> cases cs <;> simp [loopStates]

theorem loopStates_zero (banks : List Bank) (s : LoopState) : loopStates banks 0 s = [s] := by
  rw [loopStates]
  split
  · rfl
  · rfl

theorem loopStates_succ (banks : List Bank) (fuel : Nat) (cred debt : Entry)
    (cs ds : List Entry) (tx : Int) (s1 : LoopState)
    (h : loopBody banks cred debt cs ds tx = .ok s1) :
    loopStates banks (fuel + 1) ⟨cred :: cs, debt :: ds, tx⟩
      = ⟨cred :: cs, debt :: ds, tx⟩ :: loopStates banks fuel s1 := by
  rw [loopStates]
  simp only [h]

theorem loopStates_fault (banks : List Bank) (fuel : Nat) (cred debt : Entry)
    (cs ds : List Entry) (tx : Int)
    (h : ∀ s1, loopBody banks cred debt cs ds tx ≠ .ok s1) :
    loopStates banks (fuel + 1) ⟨cred :: cs, debt :: ds, tx⟩
      = [⟨cred :: cs, debt :: ds, tx⟩] := by
  rw [loopStates]
  cases hres : loopBody banks cred debt cs ds tx with
  | ok s1 => exact absurd hres (h s1)
  | outOfBounds => simp only [hres]
  | outOfFuel => simp only [hres]

theorem loopStates_head (banks : List Bank) (fuel : Nat) (s : LoopState) :
    (loopStates banks fuel s).head? = some s := by
  rw [loopStates]
  split
  · split
    · rfl
    · split <;> rfl
  · rfl

/-- A property kept by the loop body holds at the start of every iteration
and when the loop stops. -/
theorem loopStates_rule (banks : List Bank) (Inv : LoopState → Prop)
    (hInv : ∀ cred debt cs ds tx s1, Inv ⟨cred :: cs, debt :: ds, tx⟩ →
      loopBody banks cred debt cs ds tx = .ok s1 → Inv s1) :
    ∀ (fuel : Nat) (s : LoopState), Inv s → ∀ t ∈ loopStates banks fuel s, Inv t := by
  intro fuel
  induction fuel with
  | zero =>
    intro s hs t ht
    rw [loopStates_zero, List.mem_singleton] at ht
    rw [ht]; exact hs
  | succ fuel ih =>
    intro s hs t ht
    obtain ⟨cs, ds, tx⟩ := s
    cases cs with
    | nil =>
      rw [loopStates_stop_left, List.mem_singleton] at ht
      rw [ht]; exact hs
    | cons cred cs =>
      cases ds with
      | nil =>
        rw [loopStates_stop_right, List.mem_singleton] at ht
        rw [ht]; exact hs
      | cons debt ds =>
        cases hres : loopBody banks cred debt cs ds tx with
        | ok s1 =>
          rw [loopStates_succ _ _ _ _ _ _ _ _ hres, List.mem_cons] at ht
          rcases ht with ht | ht
          · rw [ht]; exact hs
          · exact ih s1 (hInv _ _ _ _ _ _ hs hres) t ht
        | outOfBounds =>
          rw [loopStates_fault _ _ _ _ _ _ _ (by rw [hres]; intro s1 h; cases h),
            List.mem_singleton] at ht
          rw [ht]; exact hs
        | outOfFuel =>
          rw [loopStates_fault _ _ _ _ _ _ _ (by rw [hres]; intro s1 h; cases h),
            List.mem_singleton] at ht
          rw [ht]; exact hs

/-- From a `Sided` state, the size of the queues decreases strictly from one
loop head to the next, there is one more loop head than iterations, and the
last loop head is the state the loop returns. -/
theorem loopStates_sided (banks : List Bank) :
    ∀ (fuel : Nat) (s : LoopState), Sided banks s → s.size ≤ fuel →
      List.Chain' (fun a b : LoopState => b.size < a.size) (loopStates banks fuel s) ∧
      (loopStates banks fuel s).length = (loopTrace banks fuel s).length + 1 ∧
      ∃ sf, whileLoop banks fuel s = .ok sf ∧ (loopStates banks fuel s).getLast? = some sf := by
  intro fuel
  induction fuel with
  | zero =>
    intro s _ hsz
    obtain ⟨cs, ds, tx⟩ := s
    have hsz0 : cs.length + ds.length ≤ 0 := hsz
    have hc : cs = [] := List.eq_nil_of_length_eq_zero (by omega)
    subst hc
    rw [loopStates_stop_left, loopTrace_stop_left, whileLoop_stop_left]
    exact ⟨List.chain'_singleton _, rfl, _, rfl, rfl⟩
  | succ fuel ih =>
    intro s hs hsz
    obtain ⟨cs, ds, tx⟩ := s
    cases cs with
    | nil =>
      rw [loopStates_stop_left, loopTrace_stop_left, whileLoop_stop_left]
      exact ⟨List.chain'_singleton _, rfl, _, rfl, rfl⟩
    | cons cred cs =>
      cases ds with
      | nil =>
        rw [loopStates_stop_right, loopTrace_stop_right, whileLoop_stop_right]
        exact ⟨List.chain'_singleton _, rfl, _, rfl, rfl⟩
      | cons debt ds =>
        obtain ⟨bc, hbc, _, _⟩ := hs.1 cred (List.mem_cons_self _ _)
        obtain ⟨bd, hbd, _, hneg⟩ := hs.2 debt (List.mem_cons_self _ _)
        have hbody := loopBody_ok hbc hbd cs ds tx
        generalize hs1 : (⟨_, _, _⟩ : LoopState) = s1 at hbody
        have hlen1 := loopBody_length hneg hbody
        have hsz0 : (cs.length + 1) + (ds.length + 1) ≤ fuel + 1 := hsz
        have hsz1 : s1.size ≤ fuel := by unfold LoopState.size; omega
        obtain ⟨hchain, hcount, sf, hrun, hlast⟩ := ih s1 (sided_step hs hbody) hsz1
        rw [loopStates_succ _ _ _ _ _ _ _ _ hbody, loopTrace_succ _ _ _ _ _ _ _ _ hbody,
          whileLoop_succ, hbody]
        refine ⟨?_, ?_, sf, hrun, ?_⟩
        · rw [List.chain'_cons']
          refine ⟨?_, hchain⟩
          intro y hy
          rw [loopStates_head] at hy
          injection hy with hy
          subst hy
          show s1.creditors.length + s1.debtors.length
            < (cred :: cs).length + (debt :: ds).length
          simp only [List.length_cons]
          omega
        · simp only [List.length_cons, hcount]
        · rw [List.getLast?_cons, hlast]
          rfl

/-- Loop heads of the solver on the first `n` banks. -/
theorem solverStates_sided (banks : List Bank) (n : Nat) (hn : n ≤ banks.length) :
    List.Chain' (fun a b : LoopState => b.size < a.size) (solverStates (n : Int) banks) ∧
    (solverStates (n : Int) banks).length = (solverTrace (n : Int) banks).length + 1 ∧
    ∃ sf, finalState (n : Int) banks = .ok sf ∧
      (solverStates (n : Int) banks).getLast? = some sf := by
  obtain ⟨q, hq, hc, hd⟩ := fillQueues_spec banks n hn
  have h := loopStates_sided banks (q.creditors.length + q.debtors.length)
    ⟨q.creditors, q.debtors, 0⟩ (sided_of_fill hc hd) (le_refl _)
  simp only [solverStates, solverTrace, finalState, hq, Outcome.bind]
  exact h

theorem traceCost_append (l₁ l₂ : List Match) :
    traceCost (l₁ ++ l₂) = traceCost l₁ + traceCost l₂ := by
  simp [traceCost]

theorem traceCost_take_bounds (ms : List Match) (k : Nat) :
    0 ≤ traceCost (ms.take k) ∧ traceCost (ms.take k) ≤ traceCost ms := by
  have h1 := traceCost_bounds (ms.take k)
  have h2 := traceCost_bounds (ms.drop k)
  have h3 := traceCost_append (ms.take k) (ms.drop k)
  rw [List.take_append_drop] at h3
  constructor
  · have : (0 : Int) ≤ ((ms.take k).length : Int) := Int.natCast_nonneg _
    omega
  · have : (0 : Int) ≤ ((ms.drop k).length : Int) := Int.natCast_nonneg _
    omega

theorem exact_zeroes_one {m : Match} (h : m.exact) :
    m.cred.1 - m.amount = 0 ∨ m.debt.1 + m.amount = 0 := by
  obtain ⟨_, _, _, _, h5⟩ := h
  rcases min_choice m.cred.1 (-m.debt.1) with h | h
  · left; omega
  · right; omega

theorem exact_amount_bounds {m : Match} (h : m.exact) :
    0 < m.amount ∧ m.amount ≤ m.cred.1 ∧ m.amount ≤ |m.debt.1| := by
  obtain ⟨h1, _, _, h4, h5⟩ := h
  have habs : |m.debt.1| = -m.debt.1 := abs_of_neg h4
  rw [habs, h5]
  exact ⟨lt_min h1 (by omega), min_le_left _ _, min_le_right _ _⟩

/-- Claim C13: for every input whose balances are all above `-2^63`
(`numBanks` the length of the list, balances summing to zero or not), each
iteration brings the popped creditor or the popped debtor to exactly zero
without overflow, the combined size of the two collections decreases strictly
from each loop head to the next, and the loop terminates: after at most
`p + q - 1` iterations when there are `p >= 1` creditors and `q >= 1` debtors,
after no iteration otherwise. -/
theorem each_iteration_settles_one (banks : List Bank) (hrange : AboveMin banks) :
    (∀ m ∈ solverTrace (banks.length : Int) banks,
      m.noOverflow ∧ (m.cred.1 - m.amount = 0 ∨ m.debt.1 + m.amount = 0)) ∧
    List.Chain' (fun a b : LoopState => b.size < a.size)
      (solverStates (banks.length : Int) banks) ∧
    (solverStates (banks.length : Int) banks).length
      = (solverTrace (banks.length : Int) banks).length + 1 ∧
    (∃ r, optimizedSolver (banks.length : Int) banks = .ok r) ∧
    (1 ≤ creditorCount banks → 1 ≤ debtorCount banks →
      (solverTrace (banks.length : Int) banks).length
        ≤ creditorCount banks + debtorCount banks - 1) ∧
    (creditorCount banks = 0 ∨ debtorCount banks = 0 →
      solverTrace (banks.length : Int) banks = []) := by
  have hr : AboveMin (banks.take banks.length) := by rw [List.take_length]; exact hrange
  obtain ⟨sf, hfin, _, _, hex, _⟩ := solver_exact banks banks.length (le_refl _) hr
  obtain ⟨hchain, hcount, _⟩ := solverStates_sided banks banks.length (le_refl _)
  obtain ⟨hlen, hnil⟩ := solverTrace_length banks banks.length (le_refl _)
  rw [List.take_length] at hlen hnil
  rw [nonzeroCount_eq] at hlen
  exact ⟨fun m hm => ⟨noOverflow_of_exact (hex m hm), exact_zeroes_one (hex m hm)⟩,
    hchain, hcount, ⟨_, finalState_result hfin⟩, fun _ _ => hlen, hnil⟩

/-- Witness of C13: the six banks of `greedyBanks` (four iterations, `p = 3`, `q = 2`). -/
theorem each_iteration_settles_one_witness :
    (∀ m ∈ solverTrace (greedyBanks.length : Int) greedyBanks,
      m.noOverflow ∧ (m.cred.1 - m.amount = 0 ∨ m.debt.1 + m.amount = 0)) ∧
    List.Chain' (fun a b : LoopState => b.size < a.size)
      (solverStates (greedyBanks.length : Int) greedyBanks) ∧
    (solverStates (greedyBanks.length : Int) greedyBanks).length
      = (solverTrace (greedyBanks.length : Int) greedyBanks).length + 1 ∧
    (∃ r, optimizedSolver (greedyBanks.length : Int) greedyBanks = .ok r) ∧
    (1 ≤ creditorCount greedyBanks → 1 ≤ debtorCount greedyBanks →
      (solverTrace (greedyBanks.length : Int) greedyBanks).length
        ≤ creditorCount greedyBanks + debtorCount greedyBanks - 1) ∧
    (creditorCount greedyBanks = 0 ∨ debtorCount greedyBanks = 0 →
      solverTrace (greedyBanks.length : Int) greedyBanks = []) :=
  each_iteration_settles_one greedyBanks (by decide)

/-- Claim C17: for every input with `numBanks` the length of the list, at
most `2^30`, and every balance above `-2^63`, no arithmetic step overflows:
in every iteration `abs(debt.first)`, `amount`, `cred.first - amount` and
`debt.first + amount` are within the signed 64-bit range, with
`0 < amount <= cred.first` and `amount <= |debt.first|`; the count of
transaction units after any number of iterations is within the signed 32-bit
range, and the value returned is that count. -/
theorem no_step_overflows (banks : List Bank) (hlen : banks.length ≤ 2 ^ 30)
    (hrange : AboveMin banks) :
    (∀ m ∈ solverTrace (banks.length : Int) banks,
      m.noOverflow ∧ 0 < m.amount ∧ m.amount ≤ m.cred.1 ∧ m.amount ≤ |m.debt.1|) ∧
    (∀ k, isInt (traceCost ((solverTrace (banks.length : Int) banks).take k))) ∧
    optimizedSolver (banks.length : Int) banks
      = .ok (traceCost (solverTrace (banks.length : Int) banks)) := by
  have hr : AboveMin (banks.take banks.length) := by rw [List.take_length]; exact hrange
  obtain ⟨sf, _, _, _, hex, _⟩ := solver_exact banks banks.length (le_refl _) hr
  have hl := (solverTrace_length banks banks.length (le_refl _)).1
  rw [List.take_length] at hl
  have hle : nonzeroCount banks ≤ banks.length := List.countP_le_length _
  have hcost := traceCost_bounds (solverTrace (banks.length : Int) banks)
  have h30 : (2 : Nat) ^ 30 = 1073741824 := by norm_num
  have htot : traceCost (solverTrace (banks.length : Int) banks) < 2 ^ 31 := by
    have : (2 : Int) ^ 31 = 2147483648 := by norm_num
    omega
  refine ⟨fun m hm => ⟨noOverflow_of_exact (hex m hm), exact_amount_bounds (hex m hm)⟩, ?_, ?_⟩
  · intro k
    have := traceCost_take_bounds (solverTrace (banks.length : Int) banks) k
    unfold isInt
    constructor
    · have : (-2 : Int) ^ 31 = -2147483648 := by norm_num
      omega
    · omega
  · rw [solver_result banks banks.length (le_refl _), wrapInt_of_isInt]
    have := traceCost_take_bounds (solverTrace (banks.length : Int) banks) 0
    unfold isInt
    constructor
    · have : (-2 : Int) ^ 31 = -2147483648 := by norm_num
      omega
    · exact htot

/-- Witness of C17: the five banks of `tieBanks`. -/
theorem no_step_overflows_witness :
    (∀ m ∈ solverTrace (tieBanks.length : Int) tieBanks,
      m.noOverflow ∧ 0 < m.amount ∧ m.amount ≤ m.cred.1 ∧ m.amount ≤ |m.debt.1|) ∧
    (∀ k, isInt (traceCost ((solverTrace (tieBanks.length : Int) tieBanks).take k))) ∧
    optimizedSolver (tieBanks.length : Int) tieBanks
      = .ok (traceCost (solverTrace (tieBanks.length : Int) tieBanks)) :=
  no_step_overflows tieBanks (by decide) (by decide)

theorem idxCount_cons (i : Nat) (x : Entry) (l : List Entry) :
    idxCount i (x :: l) = idxCount i l + if x.2 = i then 1 else 0 := by
  unfold idxCount
  rw [List.map_cons, List.count_cons]
  simp only [beq_iff_eq]

theorem idxCount_pqPush (before : Entry → Entry → Bool) (i : Nat) (x : Entry) (l : List Entry) :
    idxCount i (pqPush before x l) = idxCount i l + if x.2 = i then 1 else 0 := by
  rw [← idxCount_cons]
  unfold idxCount
  exact ((pqPush_perm before x l).map Prod.snd).count_eq i

theorem indexUnique_step {banks : List Bank} {cred debt : Entry} {cs ds : List Entry}
    {tx : Int} {s1 : LoopState} (hs : IndexUnique ⟨cred :: cs, debt :: ds, tx⟩)
    (h : loopBody banks cred debt cs ds tx = .ok s1) : IndexUnique s1 := by
  unfold loopBody at h
  split at h
  · injection h with h
    subst h
    intro i
    have hi := hs i
    simp only [idxCount_cons] at hi
    simp only
    split_ifs <;> (try simp only [idxCount_pqPush]) <;> (try split_ifs) <;>
      (try split_ifs at hi) <;> omega
  · cases h

theorem idxCount_entriesFrom (i : Nat) (bs : List Bank) :
    ∀ k, idxCount i (entriesFrom isPos k bs) + idxCount i (entriesFrom isNeg k bs)
      ≤ if k ≤ i then 1 else 0 := by
  induction bs with
  | nil => intro k; simp [entriesFrom, idxCount]
  | cons b bs ih =>
    intro k
    have h := ih (k + 1)
    unfold entriesFrom
    by_cases hp : isPos b.balance = true
    · have hq : isNeg b.balance = false := by
        simp only [isPos, isNeg, decide_eq_true_eq, decide_eq_false_iff_not] at hp ⊢
        omega
      simp only [hp, hq, if_true, if_false, idxCount_cons, Bool.false_eq_true]
      split_ifs at h ⊢ <;> omega
    · by_cases hq : isNeg b.balance = true
      · simp only [hp, hq, if_true, if_false, idxCount_cons, Bool.false_eq_true]
        split_ifs at h ⊢ <;> omega
      · simp only [hp, hq, if_false, Bool.false_eq_true]
        split_ifs at h ⊢ <;> omega

theorem idxCount_perm {i : Nat} {l₁ l₂ : List Entry} (h : l₁.Perm l₂) :
    idxCount i l₁ = idxCount i l₂ := by
  unfold idxCount
  exact (h.map Prod.snd).count_eq i

theorem nodup_of_indexUnique {s : LoopState} (h : IndexUnique s) :
    ((s.creditors ++ s.debtors).map Prod.snd).Nodup := by
  rw [List.nodup_iff_count_le_one]
  intro i
  rw [List.map_append, List.count_append]
  exact h i

/-- Signs and uniqueness of indices hold at every loop head of the solver. -/
theorem solverStates_signs (banks : List Bank) (n : Nat) (hn : n ≤ banks.length) :
    ∀ s ∈ solverStates (n : Int) banks,
      (∀ e ∈ s.creditors, 0 < e.1) ∧ (∀ e ∈ s.debtors, e.1 < 0) ∧
      ((s.creditors ++ s.debtors).map Prod.snd).Nodup := by
  obtain ⟨q, hq, hc, hd⟩ := fillQueues_spec banks n hn
  have h0 : Sided banks ⟨q.creditors, q.debtors, 0⟩ ∧
      IndexUnique ⟨q.creditors, q.debtors, 0⟩ := by
    refine ⟨sided_of_fill hc hd, fun i => ?_⟩
    simp only
    rw [idxCount_perm hc, idxCount_perm hd]
    have := idxCount_entriesFrom i (banks.take n) 0
    simp only [Nat.zero_le, if_true] at this
    exact this
  have hall := loopStates_rule banks (fun s => Sided banks s ∧ IndexUnique s)
    (fun cred debt cs ds tx s1 hI h => ⟨sided_step hI.1 h, indexUnique_step hI.2 h⟩)
    (q.creditors.length + q.debtors.length) _ h0
  intro s hs
  simp only [solverStates, hq] at hs
  obtain ⟨hS, hU⟩ := hall s hs
  refine ⟨fun e he => ?_, fun e he => ?_, nodup_of_indexUnique hU⟩
  · obtain ⟨_, _, _, h⟩ := hS.1 e he; exact h
  · obtain ⟨_, _, _, h⟩ := hS.2 e he; exact h

/-- The queues hold the input total at every loop head when no balance is `-2^63`. -/
theorem solverStates_sum (banks : List Bank) (n : Nat) (hn : n ≤ banks.length)
    (hrange : AboveMin (banks.take n)) :
    ∀ s ∈ solverStates (n : Int) banks,
      queueSum s.creditors + queueSum s.debtors = totalBalance (banks.take n) := by
  obtain ⟨q, hq, hc, hd⟩ := fillQueues_spec banks n hn
  have hE : Exact banks (totalBalance (banks.take n)) ⟨q.creditors, q.debtors, 0⟩ := by
    refine ⟨sided_of_fill hc hd, ⟨?_, ?_⟩, ?_⟩
    · intro e he
      obtain ⟨j, b, hj, _, rfl⟩ := mem_entriesFrom (hc.mem_iff.mp he)
      exact (hrange b (List.getElem?_mem hj)).2
    · intro e he
      obtain ⟨j, b, hj, _, rfl⟩ := mem_entriesFrom (hd.mem_iff.mp he)
      exact (hrange b (List.getElem?_mem hj)).1
    · simp only
      rw [queueSum_perm hc, queueSum_perm hd]
      exact queueSum_entriesFrom _ 0
  have hall := loopStates_rule banks (Exact banks (totalBalance (banks.take n)))
    (fun cred debt cs ds tx s1 hI h => (exact_preserved hI h).1)
    (q.creditors.length + q.debtors.length) _ hE
  intro s hs
  simp only [solverStates, hq] at hs
  exact (hall s hs).2.2

/-- Counterexample to C18: on `lopsidedBanks` the loop heads are the initial
state and the empty state; the input balances sum to `5 - 2^63`, the balances
held at the second loop head sum to 0. -/
theorem sum_invariant_breaks_at_min_long :
    solverStates 2 lopsidedBanks
      = [⟨[(5, 0)], [(-9223372036854775808, 1)], 0⟩, ⟨[], [], 1⟩] ∧
    totalBalance (lopsidedBanks.take 2) = -9223372036854775803 ∧
    queueSum ([] : List Entry) + queueSum ([] : List Entry) ≠ -9223372036854775803 := by
  decide

/-- Claim C18 as amended: loop invariant of `optimizedSolver` for `numBanks`
at most the length of the vector. At the start of every iteration (and when
the loop stops) every creditor entry has a strictly positive balance, every
debtor entry a strictly negative one, and each bank index occurs in at most
one entry across both collections. When the first `numBanks` balances are all
above `-2^63`, the balances held in the two collections sum to the sum of the
first `numBanks` input balances at every loop head, so at termination the
balances left in the non-exhausted collection sum to exactly the input total. -/
theorem loop_invariant_holds (banks : List Bank) (n : Nat) (hn : n ≤ banks.length) :
    (∀ s ∈ solverStates (n : Int) banks,
      (∀ e ∈ s.creditors, 0 < e.1) ∧ (∀ e ∈ s.debtors, e.1 < 0) ∧
      ((s.creditors ++ s.debtors).map Prod.snd).Nodup) ∧
    (AboveMin (banks.take n) →
      (∀ s ∈ solverStates (n : Int) banks,
        queueSum s.creditors + queueSum s.debtors = totalBalance (banks.take n)) ∧
      ∃ sf, finalState (n : Int) banks = .ok sf ∧
        (solverStates (n : Int) banks).getLast? = some sf ∧
        ((sf.creditors = [] ∧ queueSum sf.debtors = totalBalance (banks.take n)) ∨
         (sf.debtors = [] ∧ queueSum sf.creditors = totalBalance (banks.take n)))) := by
  refine ⟨solverStates_signs banks n hn, fun hrange => ⟨solverStates_sum banks n hn hrange, ?_⟩⟩
  obtain ⟨sf, hfin, hE, hend, _, _⟩ := solver_exact banks n hn hrange
  obtain ⟨_, _, sf', hfin', hlast⟩ := solverStates_sided banks n hn
  rw [hfin] at hfin'
  injection hfin' with hfin'
  subst hfin'
  refine ⟨sf, hfin, hlast, ?_⟩
  have hT := hE.2.2
  rcases hend with h | h
  · left
    rw [h] at hT
    simp only [queueSum, List.map_nil, List.sum_nil, zero_add] at hT
    exact ⟨h, hT⟩
  · right
    rw [h] at hT
    simp only [queueSum, List.map_nil, List.sum_nil, add_zero] at hT
    exact ⟨h, hT⟩

/-- Witness of C18 (amended): the six banks of `greedyBanks`. -/
theorem loop_invariant_holds_witness :
    AboveMin (greedyBanks.take 6) ∧
    (∀ s ∈ solverStates (6 : Nat) greedyBanks,
      (∀ e ∈ s.creditors, 0 < e.1) ∧ (∀ e ∈ s.debtors, e.1 < 0) ∧
      ((s.creditors ++ s.debtors).map Prod.snd).Nodup) ∧
    (AboveMin (greedyBanks.take 6) →
      (∀ s ∈ solverStates (6 : Nat) greedyBanks,
        queueSum s.creditors + queueSum s.debtors = totalBalance (greedyBanks.take 6)) ∧
      ∃ sf, finalState (6 : Nat) greedyBanks = .ok sf ∧
        (solverStates (6 : Nat) greedyBanks).getLast? = some sf ∧
        ((sf.creditors = [] ∧ queueSum sf.debtors = totalBalance (greedyBanks.take 6)) ∨
         (sf.debtors = [] ∧ queueSum sf.creditors = totalBalance (greedyBanks.take 6)))) :=
  ⟨by decide, loop_invariant_holds greedyBanks 6 (by decide)⟩

theorem loopBody_lengths_ge {banks : List Bank} {cred debt : Entry} {cs ds : List Entry}
    {tx : Int} {s1 : LoopState} (h : loopBody banks cred debt cs ds tx = .ok s1) :
    cs.length ≤ s1.creditors.length ∧ ds.length ≤ s1.debtors.length := by
  unfold loopBody at h
  split at h
  · injection h with h
    subst h
    constructor
    · simp only
      split
      · rw [length_pqPush]; omega
      · exact le_refl _
    · simp only
      split
      · rw [length_pqPush]; omega
      · exact le_refl _
  · cases h

/-- One iteration removes at most one creditor and at most one debtor: the
entries of each queue at the start are at most the iterations plus those left
at the end. -/
theorem solverTrace_removals (banks : List Bank) (n : Nat) (hn : n ≤ banks.length) :
    ∃ sf, finalState (n : Int) banks = .ok sf ∧
      creditorCount (banks.take n) ≤ (solverTrace (n : Int) banks).length + sf.creditors.length ∧
      debtorCount (banks.take n) ≤ (solverTrace (n : Int) banks).length + sf.debtors.length := by
  obtain ⟨q, hq, hc, hd⟩ := fillQueues_spec banks n hn
  have hcl : q.creditors.length = creditorCount (banks.take n) := by
    rw [hc.length_eq, length_entriesFrom]; rfl
  have hdl : q.debtors.length = debtorCount (banks.take n) := by
    rw [hd.length_eq, length_entriesFrom]; rfl
  obtain ⟨sf, hrun, _, _, hΦ⟩ := loop_rule banks (Sided banks)
    (fun s ms sf => s.creditors.length ≤ ms.length + sf.creditors.length ∧
      s.debtors.length ≤ ms.length + sf.debtors.length)
    (fun s h => sided_valid h)
    (fun cred debt cs ds tx s1 hI h => sided_step hI h)
    (fun s _ _ => ⟨by simp, by simp⟩)
    (fun cred debt cs ds tx s1 ms sf _ h hrun => by
      have hl := loopBody_lengths_ge h
      simp only [List.length_cons]
      constructor
      · have := hrun.1; omega
      · have := hrun.2; omega)
    (q.creditors.length + q.debtors.length) ⟨q.creditors, q.debtors, 0⟩
    (sided_of_fill hc hd) (le_refl _)
  refine ⟨sf, ?_, ?_, ?_⟩
  · simp only [finalState, hq, Outcome.bind]
    exact hrun
  · simp only [solverTrace, hq]
    rw [← hcl]
    exact hΦ.1
  · simp only [solverTrace, hq]
    rw [← hdl]
    exact hΦ.2

theorem starBanks_sides (K : Nat) (hK : 0 < K) :
    creditorCount (starBanks K) = K ∧ debtorCount (starBanks K) = 1 := by
  have hK0 : K ≠ 0 := by omega
  constructor
  · simp [starBanks, creditorCount, mkBank, List.countP_cons, List.countP_replicate]
  · simp [starBanks, debtorCount, mkBank, List.countP_cons, List.countP_replicate]
    omega

/-- Counterexample to C19: on `minLongBanks` (balances summing to zero, two
creditors, one debtor holding `-2^63`) the result is 1, below `max(2, 1)`;
on `starBanks (2^30)` (balances summing to zero, `2^30` creditors, one
debtor) the 32-bit counter overflows and the result is `-2^31`. -/
theorem count_below_larger_side :
    (totalBalance minLongBanks = 0 ∧ creditorCount minLongBanks = 2 ∧
      debtorCount minLongBanks = 1 ∧ optimizedSolver 3 minLongBanks = .ok 1) ∧
    (totalBalance (starBanks (2 ^ 30)) = 0 ∧ creditorCount (starBanks (2 ^ 30)) = 2 ^ 30 ∧
      debtorCount (starBanks (2 ^ 30)) = 1 ∧
      optimizedSolver (2 ^ 30 + 2) (starBanks (2 ^ 30)) = .ok (-2147483648)) := by
  refine ⟨by decide, starBanks_total _, (starBanks_sides _ (by norm_num)).1,
    (starBanks_sides _ (by norm_num)).2, ?_⟩
  have h := star_result (2 ^ 30) (by norm_num) (by norm_num)
  have e1 : (((2 ^ 30 : Nat) : Int) + 2) = 2 ^ 30 + 2 := by norm_num
  have e2 : wrapInt (2 * ((2 ^ 30 : Nat) : Int)) = -2147483648 := by
    unfold wrapInt
    norm_num
  rw [e1, e2] at h
  exact h

/-- Claim C19 as amended: for every list of banks whose balances sum to zero
and are all above `-2^63`, with at most `2^30` banks of nonzero balance, `p`
banks of positive and `q` banks of negative balance, the result of
`optimizedSolver` is at least `max(p, q)`. -/
theorem count_at_least_larger_side (banks : List Bank) (hsum : totalBalance banks = 0)
    (hrange : AboveMin banks) (hN : nonzeroCount banks ≤ 2 ^ 30) :
    ∃ r, optimizedSolver (banks.length : Int) banks = .ok r ∧
      ((max (creditorCount banks) (debtorCount banks) : Nat) : Int) ≤ r := by
  obtain ⟨sf, hfin, hc, hd, _⟩ := solver_clears banks hsum hrange
  obtain ⟨sf', hfin', hp, hq⟩ := solverTrace_removals banks banks.length (le_refl _)
  rw [hfin] at hfin'
  injection hfin' with hfin'
  subst hfin'
  rw [List.take_length, hc] at hp
  rw [List.take_length, hd] at hq
  simp only [List.length_nil, Nat.add_zero] at hp hq
  have hlen := (solverTrace_length banks banks.length (le_refl _)).1
  rw [List.take_length] at hlen
  have hcost := traceCost_bounds (solverTrace (banks.length : Int) banks)
  have h30 : (2 : Nat) ^ 30 = 1073741824 := by norm_num
  refine ⟨_, solver_result banks banks.length (le_refl _), ?_⟩
  rw [wrapInt_of_isInt]
  · have hmax : max (creditorCount banks) (debtorCount banks)
        ≤ (solverTrace (banks.length : Int) banks).length := max_le hp hq
    omega
  · unfold isInt
    have : (2 : Int) ^ 31 = 2147483648 := by norm_num
    omega

/-- Witness of C19 (amended): the six banks of `greedyBanks`, `p = 3`, `q = 2`. -/
theorem count_at_least_larger_side_witness :
    ∃ r, optimizedSolver (greedyBanks.length : Int) greedyBanks = .ok r ∧
      ((max (creditorCount greedyBanks) (debtorCount greedyBanks) : Nat) : Int) ≤ r :=
  count_at_least_larger_side greedyBanks (by decide) (by decide) (by decide)

theorem map_fst_entriesFrom (keep : Int → Bool) (bs : List Bank) :
    ∀ k, (entriesFrom keep k bs).map Prod.fst = (bs.map Bank.balance).filter keep := by
  induction bs with
  | nil => intro k; rfl
  | cons b bs ih =>
    intro k
    unfold entriesFrom
    by_cases hk : keep b.balance = true
    · rw [if_pos hk, List.map_cons, ih, List.map_cons, List.filter_cons_of_pos hk]
    · rw [if_neg hk, ih, List.map_cons, List.filter_cons_of_neg hk]

theorem cred_balances_sorted {l : List Entry} (h : PopOrdered credBefore l) :
    (l.map Prod.fst).Sorted (· ≥ ·) := by
  unfold List.Sorted
  rw [List.pairwise_map]
  refine List.Pairwise.imp ?_ h
  intro a b hab
  simp only [credBefore, pairLt, Bool.or_eq_false_iff, decide_eq_false_iff_not] at hab
  omega

theorem debt_balances_sorted {l : List Entry} (h : PopOrdered debtBefore l) :
    (l.map Prod.fst).Sorted (· ≤ ·) := by
  unfold List.Sorted
  rw [List.pairwise_map]
  refine List.Pairwise.imp ?_ h
  intro a b hab
  simp only [debtBefore, pairLt, Bool.or_eq_false_iff, decide_eq_false_iff_not] at hab
  omega

/-- Two creditor queues in pop order holding the same balances list them in the same order. -/
theorem cred_balances_eq {l l' : List Entry} (h : PopOrdered credBefore l)
    (h' : PopOrdered credBefore l') (hp : (l.map Prod.fst).Perm (l'.map Prod.fst)) :
    l.map Prod.fst = l'.map Prod.fst :=
  List.eq_of_perm_of_sorted hp (cred_balances_sorted h) (cred_balances_sorted h')

/-- Two debtor queues in pop order holding the same balances list them in the same order. -/
theorem debt_balances_eq {l l' : List Entry} (h : PopOrdered debtBefore l)
    (h' : PopOrdered debtBefore l') (hp : (l.map Prod.fst).Perm (l'.map Prod.fst)) :
    l.map Prod.fst = l'.map Prod.fst :=
  List.eq_of_perm_of_sorted hp (debt_balances_sorted h) (debt_balances_sorted h')

theorem map_fst_pqPush_perm (before : Entry → Entry → Bool) (v : Int) (i i' : Nat)
    {l l' : List Entry} (hmap : l.map Prod.fst = l'.map Prod.fst) :
    ((pqPush before (v, i) l).map Prod.fst).Perm ((pqPush before (v, i') l').map Prod.fst) := by
  have h1 := (pqPush_perm before (v, i) l).map Prod.fst
  have h2 := (pqPush_perm before (v, i') l').map Prod.fst
  rw [List.map_cons] at h1 h2
  rw [hmap] at h1
  exact h1.trans h2.symm

/-- The number of iterations depends on the balances in the queues only. -/
theorem loopTrace_length_congr (banks banks' : List Bank) :
    ∀ (fuel : Nat) (s s' : LoopState), Sided banks s → Sided banks' s' →
      PopOrdered credBefore s.creditors → PopOrdered debtBefore s.debtors →
      PopOrdered credBefore s'.creditors → PopOrdered debtBefore s'.debtors →
      s.creditors.map Prod.fst = s'.creditors.map Prod.fst →
      s.debtors.map Prod.fst = s'.debtors.map Prod.fst →
      (loopTrace banks fuel s).length = (loopTrace banks' fuel s').length := by
  intro fuel
  induction fuel with
  | zero => intro s s' _ _ _ _ _ _ _ _; rw [loopTrace_zero, loopTrace_zero]
  | succ fuel ih =>
    intro s s' hS hS' hoc hod hoc' hod' hc hd
    obtain ⟨cs, ds, tx⟩ := s
    obtain ⟨cs', ds', tx'⟩ := s'
    simp only at hoc hod hoc' hod' hc hd
    cases cs with
    | nil =>
      have : cs' = [] := by simpa using hc.symm
      subst this
      rw [loopTrace_stop_left, loopTrace_stop_left]
    | cons cred cs =>
      cases cs' with
      | nil => simp at hc
      | cons cred' cs' =>
        cases ds with
        | nil =>
          have : ds' = [] := by simpa using hd.symm
          subst this
          rw [loopTrace_stop_right, loopTrace_stop_right]
        | cons debt ds =>
          cases ds' with
          | nil => simp at hd
          | cons debt' ds' =>
            simp only [List.map_cons, List.cons.injEq] at hc hd
            obtain ⟨hc1, hcs⟩ := hc
            obtain ⟨hd1, hds⟩ := hd
            have hb : ∃ s1, loopBody banks cred debt cs ds tx = .ok s1 := by
              obtain ⟨bc, hbc, _, _⟩ := hS.1 cred (List.mem_cons_self _ _)
              obtain ⟨bd, hbd, _, _⟩ := hS.2 debt (List.mem_cons_self _ _)
              exact ⟨_, loopBody_ok hbc hbd cs ds tx⟩
            have hb' : ∃ s1, loopBody banks' cred' debt' cs' ds' tx' = .ok s1 := by
              obtain ⟨bc, hbc, _, _⟩ := hS'.1 cred' (List.mem_cons_self _ _)
              obtain ⟨bd, hbd, _, _⟩ := hS'.2 debt' (List.mem_cons_self _ _)
              exact ⟨_, loopBody_ok hbc hbd cs' ds' tx'⟩
            obtain ⟨s1, hs1⟩ := hb
            obtain ⟨s1', hs1'⟩ := hb'
            have hO := loopBody_popOrdered hoc hod hs1
            have hO' := loopBody_popOrdered hoc' hod' hs1'
            have hSs := sided_step hS hs1
            have hSs' := sided_step hS' hs1'
            have hocs : PopOrdered credBefore cs := (List.pairwise_cons.mp hoc).2
            have hocs' : PopOrdered credBefore cs' := (List.pairwise_cons.mp hoc').2
            have hods : PopOrdered debtBefore ds := (List.pairwise_cons.mp hod).2
            have hods' : PopOrdered debtBefore ds' := (List.pairwise_cons.mp hod').2
            have hamt : matchAmount cred debt = matchAmount cred' debt' := by
              unfold matchAmount
              rw [hc1, hd1]
            obtain ⟨_, _, _, _, _, _, _, _, e1⟩ := loopBody_sided hS hs1
            obtain ⟨_, _, _, _, _, _, _, _, e1'⟩ := loopBody_sided hS' hs1'
            have hcm : (s1.creditors.map Prod.fst).Perm (s1'.creditors.map Prod.fst) := by
              rw [e1, e1']
              simp only [hamt, hc1]
              split
              · exact map_fst_pqPush_perm _ _ _ _ hcs
              · rw [hcs]
            have hdm : (s1.debtors.map Prod.fst).Perm (s1'.debtors.map Prod.fst) := by
              rw [e1, e1']
              simp only [hamt, hd1]
              split
              · exact map_fst_pqPush_perm _ _ _ _ hds
              · rw [hds]
            rw [loopTrace_succ _ _ _ _ _ _ _ _ hs1, loopTrace_succ _ _ _ _ _ _ _ _ hs1',
              List.length_cons, List.length_cons,
              ih s1 s1' hSs hSs' hO.1 hO.2 hO'.1 hO'.2
                (cred_balances_eq hO.1 hO'.1 hcm) (debt_balances_eq hO.2 hO'.2 hdm)]

/-- The queues built by the `for` loop over the whole vector: in pop order, and
holding the positive and the negative balances of the input. -/
theorem fill_balances (banks : List Bank) :
    ∃ q, fillQueues (banks.length : Int) banks = .ok q ∧
      Sided banks ⟨q.creditors, q.debtors, 0⟩ ∧
      PopOrdered credBefore q.creditors ∧ PopOrdered debtBefore q.debtors ∧
      (q.creditors.map Prod.fst).Perm ((banks.map Bank.balance).filter isPos) ∧
      (q.debtors.map Prod.fst).Perm ((banks.map Bank.balance).filter isNeg) := by
  obtain ⟨q, hq, hc, hd⟩ := fillQueues_spec banks banks.length (le_refl _)
  have hO := fillFrom_popOrdered banks (banks.length : Int).toNat 0 ⟨[], []⟩ q
    List.Pairwise.nil List.Pairwise.nil hq
  have hS := sided_of_fill hc hd
  rw [List.take_length] at hc hd
  refine ⟨q, hq, hS, hO.1, hO.2, ?_, ?_⟩
  · have := hc.map Prod.fst
    rwa [map_fst_entriesFrom] at this
  · have := hd.map Prod.fst
    rwa [map_fst_entriesFrom] at this

/-- With a common mode in each of two vectors whose balances are the same
multiset, the solver returns the same count on both. -/
theorem count_of_balances (banks banks' : List Bank)
    (hbal : (banks.map Bank.balance).Perm (banks'.map Bank.balance))
    (hmode : ∃ mode, ∀ b ∈ banks, mode ∈ b.optimizedModes)
    (hmode' : ∃ mode, ∀ b ∈ banks', mode ∈ b.optimizedModes) :
    optimizedSolver (banks.length : Int) banks
      = optimizedSolver (banks'.length : Int) banks' := by
  obtain ⟨q, hq, hS, hoc, hod, hc, hd⟩ := fill_balances banks
  obtain ⟨q', hq', hS', hoc', hod', hc', hd'⟩ := fill_balances banks'
  have hcm : q.creditors.map Prod.fst = q'.creditors.map Prod.fst :=
    cred_balances_eq hoc hoc' (hc.trans ((hbal.filter _).trans hc'.symm))
  have hdm : q.debtors.map Prod.fst = q'.debtors.map Prod.fst :=
    debt_balances_eq hod hod' (hd.trans ((hbal.filter _).trans hd'.symm))
  have hcl : q.creditors.length = q'.creditors.length := by
    have := congrArg List.length hcm
    simpa using this
  have hdl : q.debtors.length = q'.debtors.length := by
    have := congrArg List.length hdm
    simpa using this
  have hlen : (solverTrace (banks.length : Int) banks).length
      = (solverTrace (banks'.length : Int) banks').length := by
    simp only [solverTrace, hq, hq']
    rw [hcl, hdl]
    exact loopTrace_length_congr banks banks' _ _ _ hS hS' hoc hod hoc' hod' hcm hdm
  rw [solver_result banks banks.length (le_refl _),
    solver_result banks' banks'.length (le_refl _),
    traceCost_unpenalised (no_penalty_of_compatible banks banks.length (le_refl _)
      (pairsCompatible_of_common_mode hmode)),
    traceCost_unpenalised (no_penalty_of_compatible banks' banks'.length (le_refl _)
      (pairsCompatible_of_common_mode hmode')),
    hlen]

/-- Claim C14: when every bank of the list has one common mode in its mode
set, the count is invariant to input order: on every permutation of the list
`optimizedSolver` returns the same count; more generally the count is the
same on every list with a common mode whose balances are the same multiset. -/
theorem count_invariant_under_reordering (banks : List Bank)
    (hmode : ∃ mode, ∀ b ∈ banks, mode ∈ b.optimizedModes) :
    (∀ banks' : List Bank, banks.Perm banks' →
      optimizedSolver (banks'.length : Int) banks'
        = optimizedSolver (banks.length : Int) banks) ∧
    (∀ banks' : List Bank, (∃ mode, ∀ b ∈ banks', mode ∈ b.optimizedModes) →
      (banks.map Bank.balance).Perm (banks'.map Bank.balance) →
      optimizedSolver (banks'.length : Int) banks'
        = optimizedSolver (banks.length : Int) banks) := by
  constructor
  · intro banks' hperm
    obtain ⟨mode, hm⟩ := hmode
    exact (count_of_balances banks banks' (hperm.map _) ⟨mode, hm⟩
      ⟨mode, fun b hb => hm b (hperm.mem_iff.mpr hb)⟩).symm
  · intro banks' hmode' hbal
    exact (count_of_balances banks banks' hbal hmode hmode').symm

/-- Witness of C14: the six banks of `greedyBanks`, all on mode 0, and their reversal. -/
theorem count_invariant_under_reordering_witness :
    optimizedSolver (greedyBanks.reverse.length : Int) greedyBanks.reverse
      = optimizedSolver (greedyBanks.length : Int) greedyBanks :=
  (count_invariant_under_reordering greedyBanks ⟨0, by decide⟩).1 greedyBanks.reverse
    (List.reverse_perm greedyBanks).symm

end SettlementEngine
